import Mathlib

/-!
# Module path derivation of `common/paths.go`

A shallow embedding of `src/common/paths.go` together with the three
`path/filepath` functions it calls (`Clean`, `Join`, `Rel`, Unix flavour:
the separator is `/`, there are no volume names, `sameWord` is equality).

Go strings are modelled as lists of characters (`Str`).  Only the two
characters `/` and `.` are ever inspected by the code.

The filesystem is a probe oracle `Str → Option OsError` standing for
`os.Stat`, and the property-error sink of the module context is an explicit
list of recorded `PropertyErrorf` calls that is threaded through the two
checking functions.
-/

set_option autoImplicit false

namespace Soong

/-! ## Strings and `path/filepath` -/

/-- A Go string. -/
abbrev Str := List Char

/-- The constant `filepath.Separator` on Unix. -/
def Separator : Char := '/'

/-- The function `os.IsPathSeparator` on Unix. -/
def IsPathSeparator (c : Char) : Bool := c == Separator

/-- The loop state of `filepath.Clean`: `out` is the contents `buf[0:w]` of the
output buffer (so `out.length` is `out.w`), `dotdot` is the index where `..`
must stop. -/
structure CleanState where
  out : Str
  dotdot : Nat
deriving DecidableEq, Repr

/-- The inner loop of the `..` case of `filepath.Clean`,
`for out.w > dotdot && !os.IsPathSeparator(out.index(out.w)) { out.w-- }`,
started at `out.w = w`; returns the final `out.w`. -/
def backtrack (buf : Str) (dotdot : Nat) : Nat → Nat
  | 0 => 0
  | w + 1 =>
    if dotdot < w + 1 ∧ buf[w + 1]? ≠ some Separator then backtrack buf dotdot w
    else w + 1

/-- The main loop `for r < n { switch ... }` of `filepath.Clean`.  The second
argument is the unread input `path[r:]`; the first one is fuel, one unit per
iteration (every iteration reads at least one character). -/
def cleanLoop (rooted : Bool) : Nat → Str → CleanState → CleanState
  | 0, _, st => st
  | _ + 1, [], st => st
  | fuel + 1, c :: t, st =>
    if c = Separator then
      -- empty path element
      cleanLoop rooted fuel t st
    else if c = '.' ∧ (t = [] ∨ t.head? = some Separator) then
      -- . element
      cleanLoop rooted fuel t st
    else if c = '.' ∧ t.head? = some '.' ∧ (t.tail = [] ∨ t.tail.head? = some Separator) then
      -- .. element: remove to last separator
      if st.dotdot < st.out.length then
        -- can backtrack
        cleanLoop rooted fuel t.tail
          ⟨st.out.take (backtrack st.out st.dotdot (st.out.length - 1)), st.dotdot⟩
      else if !rooted then
        -- cannot backtrack, but not rooted, so append .. element
        let out1 := if 0 < st.out.length then st.out ++ [Separator] else st.out
        let out2 := out1 ++ ['.', '.']
        cleanLoop rooted fuel t.tail ⟨out2, out2.length⟩
      else
        cleanLoop rooted fuel t.tail st
    else
      -- real path element: add slash if needed, then copy element
      let out1 :=
        if (rooted && st.out.length != 1) || (!rooted && st.out.length != 0) then
          st.out ++ [Separator]
        else st.out
      cleanLoop rooted fuel ((c :: t).dropWhile (fun x => x != Separator))
        ⟨out1 ++ (c :: t).takeWhile (fun x => x != Separator), st.dotdot⟩

/-- The function `filepath.Clean` (Unix). -/
def Clean (path : Str) : Str :=
  match path with
  | [] => ['.']
  | c :: t =>
    let rooted := IsPathSeparator c
    let st0 : CleanState := if rooted then ⟨[Separator], 1⟩ else ⟨[], 0⟩
    let rest := if rooted then t else c :: t
    let st := cleanLoop rooted (c :: t).length rest st0
    -- Turn empty string into "."
    if st.out.length = 0 then ['.'] else st.out

/-- The function `strings.Join`. -/
def stringsJoin (sep : Str) : List Str → Str
  | [] => []
  | [a] => a
  | a :: b :: rest => a ++ sep ++ stringsJoin sep (b :: rest)

/-- The function `filepath.Join` (Unix): empty leading elements are skipped, the
rest is joined with the separator and cleaned. -/
def Join : List Str → Str
  | [] => []
  | e :: es => if e ≠ [] then Clean (stringsJoin [Separator] (e :: es)) else Join es

/-- The position reached by the element-matching loop of `filepath.Rel`:
`baseRest` is `base[b0:]`, `baseElem` is `base[b0:bi]` and `targRest` is
`targ[t0:]`. -/
structure RelPos where
  baseRest : Str
  baseElem : Str
  targRest : Str
deriving DecidableEq, Repr

/-- The element-matching loop of `filepath.Rel`, which positions `base[b0:bi]` and
`targ[t0:ti]` at the first differing elements.  At the head of the loop `bi = b0`
and `ti = t0`, so the state is `base[b0:]` and `targ[t0:]`.  A path that is used
up contributes the empty element, so that a base element which remains when the
target ends is found as the first differing one.  The first argument is fuel,
one unit per iteration. -/
def relLoop : Nat → Str → Str → RelPos
  | 0, b, t => ⟨b, [], t⟩
  | fuel + 1, b, t =>
    if b ≠ [] ∨ t ≠ [] then
      let be := b.takeWhile (fun x => x != Separator)
      let te := t.takeWhile (fun x => x != Separator)
      if te ≠ be then
        ⟨b, be, t⟩
      else
        relLoop fuel ((b.dropWhile (fun x => x != Separator)).drop 1)
          ((t.dropWhile (fun x => x != Separator)).drop 1)
    else ⟨b, [], t⟩

/-- The text of the error returned by `filepath.Rel` (older Go releases print the
cleaned paths instead; nothing below depends on the text). -/
def relError (basepath targpath : Str) : Str :=
  "Rel: can't make ".toList ++ targpath ++ " relative to ".toList ++ basepath

/-- The function `filepath.Rel` (Unix).  Both paths are cleaned and their common
leading elements are skipped.  When the first remaining element of the base is
`..` the result cannot be computed lexically and an error is returned.
Otherwise the result is one `..` for every remaining element of the base,
followed by the rest of the target, and `Rel` calls `Clean` on it. -/
def Rel (basepath targpath : Str) : Except Str Str :=
  let base := Clean basepath
  let targ := Clean targpath
  if targ = base then .ok ['.']
  else
    let base := if base = ['.'] then [] else base
    let baseSlashed := base.head? = some Separator
    let targSlashed := targ.head? = some Separator
    if baseSlashed ≠ targSlashed then .error (relError basepath targpath)
    else
      let pos := relLoop (base.length + targ.length) base targ
      if pos.baseElem = ['.', '.'] then .error (relError basepath targpath)
      else if pos.baseRest ≠ [] then
        -- Base elements left. Must go up before going down.
        let seps := pos.baseRest.count Separator
        .ok (Clean (['.', '.'] ++ (List.replicate seps [Separator, '.', '.']).flatten
              ++ (if pos.targRest ≠ [] then Separator :: pos.targRest else [])))
      else .ok (Clean pos.targRest)

/-! ## The module context -/

/-- The build configuration: `SrcDir()` and `IntermediatesDir()`. -/
structure Config where
  SrcDir : Str
  IntermediatesDir : Str
deriving DecidableEq, Repr

/-- The part of `AndroidModuleContext` that `paths.go` reads. -/
structure AndroidModuleContext where
  AConfig : Config
  ModuleDir : Str
  ModuleName : Str
  ModuleSubDir : Str
deriving DecidableEq, Repr

/-- An error value as returned by `os.Stat`: whether `os.IsNotExist` holds of it,
and its `Error()` text. -/
structure OsError where
  IsNotExist : Bool
  Error : Str
deriving DecidableEq, Repr

/-- One recorded call `ctx.PropertyErrorf(prop, format, args...)`. -/
structure PropertyError where
  property : Str
  format : Str
  args : List Str
deriving DecidableEq, Repr

/-- The value `SrcDirRelPath` panics with:
`fmt.Errorf("%q is not inside %q: %s", path, srcDir, err.Error())`. -/
structure RelPanic where
  path : Str
  srcDir : Str
  err : Str
deriving DecidableEq, Repr

/-! ## `common/paths.go` -/

/-- ModuleOutDir returns the path to the module-specific output directory. -/
def ModuleOutDir (ctx : AndroidModuleContext) : Str :=
  Join [ctx.AConfig.IntermediatesDir, ctx.ModuleDir, ctx.ModuleName, ctx.ModuleSubDir]

/-- ModuleSrcDir returns the path of the directory that all source file paths are
specified relative to. -/
def ModuleSrcDir (ctx : AndroidModuleContext) : Str :=
  Join [ctx.AConfig.SrcDir, ctx.ModuleDir]

/-- ModuleBinDir returns the path to the module- and architecture-specific binary
output directory. -/
def ModuleBinDir (ctx : AndroidModuleContext) : Str :=
  Join [ModuleOutDir ctx, "bin".toList]

/-- ModuleLibDir returns the path to the module- and architecture-specific library
output directory. -/
def ModuleLibDir (ctx : AndroidModuleContext) : Str :=
  Join [ModuleOutDir ctx, "lib".toList]

/-- ModuleGenDir returns the module directory for generated files path. -/
def ModuleGenDir (ctx : AndroidModuleContext) : Str :=
  Join [ModuleOutDir ctx, "gen".toList]

/-- ModuleObjDir returns the module- and architecture-specific object directory
path. -/
def ModuleObjDir (ctx : AndroidModuleContext) : Str :=
  Join [ModuleOutDir ctx, "obj".toList]

/-- ModuleGoPackageDir returns the module-specific package root directory path. -/
def ModuleGoPackageDir (ctx : AndroidModuleContext) : Str :=
  Join [ModuleOutDir ctx, "pkg".toList]

/-- ModuleIncludeDir returns the module-specific public include directory path. -/
def ModuleIncludeDir (ctx : AndroidModuleContext) : Str :=
  Join [ModuleOutDir ctx, "include".toList]

/-- ModuleProtoDir returns the module-specific public proto include directory path. -/
def ModuleProtoDir (ctx : AndroidModuleContext) : Str :=
  Join [ModuleOutDir ctx, "proto".toList]

/-- ModuleJSCompiledDir returns the directory of the compiled JavaScript of the
module. -/
def ModuleJSCompiledDir (ctx : AndroidModuleContext) : Str :=
  Join [ModuleOutDir ctx, "js".toList]

/-- The body of the loop of `CheckModuleSrcDirsExist` for one entry `dir`. -/
def checkModuleSrcDir (stat : Str → Option OsError) (ctx : AndroidModuleContext)
    (prop : Str) (sink : List PropertyError) (dir : Str) : List PropertyError :=
  let fullDir := Join [ModuleSrcDir ctx, dir]
  match stat fullDir with
  | some err =>
    if err.IsNotExist then
      sink ++ [⟨prop, "module source directory %q does not exist".toList, [dir]⟩]
    else
      sink ++ [⟨prop, "%s".toList, [err.Error]⟩]
  | none => sink

/-- CheckModuleSrcDirsExist logs an error on a property if any of the directories
relative to the Blueprints file do not exist.  `stat` is `os.Stat`, `sink` the
errors recorded so far; the result is the sink after the call. -/
def CheckModuleSrcDirsExist (stat : Str → Option OsError) (ctx : AndroidModuleContext)
    (dirs : List Str) (prop : Str) (sink : List PropertyError) : List PropertyError :=
  dirs.foldl (checkModuleSrcDir stat ctx prop) sink

/-- The body of the loop of `CheckSrcDirsExist` for one entry `dir`. -/
def checkSrcDir (stat : Str → Option OsError) (ctx : AndroidModuleContext)
    (prop : Str) (sink : List PropertyError) (dir : Str) : List PropertyError :=
  let fullDir := Join [ctx.AConfig.SrcDir, dir]
  match stat fullDir with
  | some err =>
    if err.IsNotExist then
      sink ++ [⟨prop, "top-level source directory %q does not exist".toList, [dir]⟩]
    else
      sink ++ [⟨prop, "%s".toList, [err.Error]⟩]
  | none => sink

/-- CheckSrcDirsExist logs an error on a property if any of the directories
relative to the top of the source tree do not exist. -/
def CheckSrcDirsExist (stat : Str → Option OsError) (ctx : AndroidModuleContext)
    (dirs : List Str) (prop : Str) (sink : List PropertyError) : List PropertyError :=
  dirs.foldl (checkSrcDir stat ctx prop) sink

/-- Returns a path relative to the top level source directory; the error case is
the panic. -/
def SrcDirRelPath (ctx : AndroidModuleContext) (path : Str) : Except RelPanic Str :=
  let srcDir := ctx.AConfig.SrcDir
  match Rel srcDir path with
  | .error err => .error ⟨path, srcDir, err⟩
  | .ok relPath => .ok relPath

/-! ## Specification-level description of `Clean` -/

/-- The `/`-separated components of a string, as `strings.Split(p, "/")`. -/
def components : Str → List Str
  | [] => [[]]
  | c :: t =>
    if c = Separator then [] :: components t
    else (c :: (components t).headD []) :: (components t).tail

/-- The path elements that `Clean` acts on: the components other than the empty
one and `.`. -/
def elements (p : Str) : List Str :=
  (components p).filter (fun s => decide (s ≠ [] ∧ s ≠ ['.']))

/-- What one iteration of the loop of `Clean` does to the state when it reads the
element `e` (either `..` or a real path element). -/
def stepElem (rooted : Bool) (st : CleanState) (e : Str) : CleanState :=
  if e = ['.', '.'] then
    if st.dotdot < st.out.length then
      ⟨st.out.take (backtrack st.out st.dotdot (st.out.length - 1)), st.dotdot⟩
    else if !rooted then
      let out1 := if 0 < st.out.length then st.out ++ [Separator] else st.out
      let out2 := out1 ++ ['.', '.']
      ⟨out2, out2.length⟩
    else st
  else
    let out1 :=
      if (rooted && st.out.length != 1) || (!rooted && st.out.length != 0) then
        st.out ++ [Separator]
      else st.out
    ⟨out1 ++ e, st.dotdot⟩

/-- A path element other than `.`: non-empty, without separator. -/
def IsElem (e : Str) : Prop := e ≠ [] ∧ Separator ∉ e ∧ e ≠ ['.']

/-- A single ordinary path segment: non-empty, without separator, neither `.`
nor `..`. -/
def IsName (e : Str) : Prop := e ≠ [] ∧ Separator ∉ e ∧ e ≠ ['.'] ∧ e ≠ ['.', '.']

instance (e : Str) : Decidable (IsElem e) := by unfold IsElem; exact inferInstance

instance (e : Str) : Decidable (IsName e) := by unfold IsName; exact inferInstance

/-- A normalised element sequence: `ups` leading `..` elements followed by the
ordinary segments `names`. -/
structure Norm where
  ups : Nat
  names : List Str
deriving DecidableEq, Repr

/-- The elements of a normalised sequence, in order. -/
def Norm.elems (s : Norm) : List Str := List.replicate s.ups ['.', '.'] ++ s.names

/-- The effect of one element on a normalised sequence. -/
def Norm.push (rooted : Bool) (s : Norm) (e : Str) : Norm :=
  if e = ['.', '.'] then
    if s.names ≠ [] then ⟨s.ups, s.names.dropLast⟩
    else if rooted then s
    else ⟨s.ups + 1, []⟩
  else ⟨s.ups, s.names ++ [e]⟩

/-- The output buffer that represents a normalised sequence. -/
def Norm.buf (rooted : Bool) (s : Norm) : Str :=
  (if rooted then [Separator] else []) ++ stringsJoin [Separator] s.elems

/-- The cleaned path of a normalised sequence. -/
def Norm.render (rooted : Bool) (s : Norm) : Str :=
  if (s.buf rooted).length = 0 then ['.'] else s.buf rooted

/-- Normalisation of a sequence of elements. -/
def normalize (rooted : Bool) (es : List Str) : Norm :=
  es.foldl (Norm.push rooted) ⟨0, []⟩

/-- The function `filepath.IsAbs` on Unix: whether the path starts with the
separator (this is also the flag `rooted` of `Clean`). -/
def IsAbs (p : Str) : Bool := decide (p.head? = some Separator)

/-- The loop invariant of `Clean`: the state `st` represents the sequence `s`. -/
def Rep (rooted : Bool) (st : CleanState) (s : Norm) : Prop :=
  st.out = s.buf rooted ∧
  st.dotdot = (if rooted then 1
    else (stringsJoin [Separator] (List.replicate s.ups ['.', '.'])).length) ∧
  (rooted = true → s.ups = 0) ∧
  ∀ n ∈ s.names, IsName n

/-- Well-formed normalised sequences: a rooted one has no leading `..`, and the
segments after the leading `..` are ordinary. -/
def Norm.Valid (rooted : Bool) (s : Norm) : Prop :=
  (rooted = true → s.ups = 0) ∧ ∀ n ∈ s.names, IsName n

/-! ## Auxiliary definitions for the statements -/

/-- Whether `p` lies lexically under `root`: `filepath.Rel(root, p)` succeeds and
its result has no `..` component. -/
def liesUnder (root p : Str) : Bool :=
  match Rel root p with
  | .ok r => decide ("..".toList ∉ components r)
  | .error _ => false

/-- The part of `fmt.Sprintf` that the format strings of `paths.go` use: the verbs
`%s` and `%q` applied to string arguments, every other character copied.  The
argument `quote` is `strconv.Quote`. -/
def Sprintf (quote : Str → Str) : Str → List Str → Str
  | [], _ => []
  | '%' :: 's' :: rest, a :: args => a ++ Sprintf quote rest args
  | '%' :: 'q' :: rest, a :: args => quote a ++ Sprintf quote rest args
  | c :: rest, args => c :: Sprintf quote rest args

/-- The message of a recorded property error: its format applied to its
arguments. -/
def PropertyError.message (quote : Str → Str) (r : PropertyError) : Str :=
  Sprintf quote r.format r.args

/-- The report that one entry `d` of `dirs` gives rise to in
`CheckModuleSrcDirsExist`, if any: none when the probe of
`Join(ModuleSrcDir(ctx), d)` succeeds. -/
def moduleSrcDirReport (stat : Str → Option OsError) (ctx : AndroidModuleContext)
    (prop : Str) (d : Str) : Option PropertyError :=
  match stat (Join [ModuleSrcDir ctx, d]) with
  | none => none
  | some err =>
    some (if err.IsNotExist then
        ⟨prop, "module source directory %q does not exist".toList, [d]⟩
      else ⟨prop, "%s".toList, [err.Error]⟩)

/-- The report that one entry `d` of `dirs` gives rise to in `CheckSrcDirsExist`,
if any: none when the probe of `Join(sourceRoot, d)` succeeds. -/
def srcDirReport (stat : Str → Option OsError) (srcDir : Str)
    (prop : Str) (d : Str) : Option PropertyError :=
  match stat (Join [srcDir, d]) with
  | none => none
  | some err =>
    some (if err.IsNotExist then
        ⟨prop, "top-level source directory %q does not exist".toList, [d]⟩
      else ⟨prop, "%s".toList, [err.Error]⟩)

/-- A sample filesystem: `/src/m/a` and `/src/m/b` exist, `/src/m/locked` cannot
be read, nothing else exists. -/
def sampleStat (p : Str) : Option OsError :=
  if p = "/src/m/a".toList ∨ p = "/src/m/b".toList then none
  else if p = "/src/m/locked".toList then
    some ⟨false, "stat /src/m/locked: permission denied".toList⟩
  else some ⟨true, "no such file or directory".toList⟩

/-- Quoting of a string without special characters. -/
def sampleQuote (s : Str) : Str := Char.ofNat 34 :: s ++ [Char.ofNat 34]

/-- The fixed suffixes of the eight derived directories. -/
def suffixes : List Str :=
  ["bin".toList, "lib".toList, "gen".toList, "obj".toList, "pkg".toList, "include".toList,
    "proto".toList, "js".toList]

/-- The eight derived directories of a module, in the order of `suffixes`. -/
def suffixDirs (ctx : AndroidModuleContext) : List Str :=
  [ModuleBinDir ctx, ModuleLibDir ctx, ModuleGenDir ctx, ModuleObjDir ctx,
    ModuleGoPackageDir ctx, ModuleIncludeDir ctx, ModuleProtoDir ctx, ModuleJSCompiledDir ctx]

/-- A module context given by its five strings. -/
def mkCtx (srcDir intermediatesDir moduleDir moduleName moduleSubDir : String) :
    AndroidModuleContext :=
  ⟨⟨srcDir.toList, intermediatesDir.toList⟩, moduleDir.toList, moduleName.toList,
    moduleSubDir.toList⟩

/-- The canonical shape of a path that ends in an ordinary segment: an optional
leading separator, then `..` elements (none after a leading separator), then
ordinary segments, all joined by single separators. -/
def IsCanonical (p : Str) : Prop :=
  ∃ (k : Nat) (names : List Str), names ≠ [] ∧ (∀ n ∈ names, IsName n) ∧
    (IsAbs p = true → k = 0) ∧
    p = (if IsAbs p then [Separator] else [])
      ++ stringsJoin [Separator] (List.replicate k ['.', '.'] ++ names)

theorem components_ne_nil (p : Str) : components p ≠ [] := by
  cases p with
  | nil => simp [components]
  | cons c t => by_cases h : c = Separator <;> simp [components, h]

theorem components_eq (p : Str) :
    components p = p.takeWhile (fun x => x != Separator) ::
      (match p.dropWhile (fun x => x != Separator) with
       | [] => []
       | _ :: t => components t) := by
  induction p with
  | nil => simp [components]
  | cons c t ih =>
    by_cases h : c = Separator
    · simp [components, h]
    · rw [components, if_neg h, ih]
      simp [List.takeWhile_cons, List.dropWhile_cons, h]

theorem elements_nil : elements [] = [] := by
  simp [elements, components]

theorem elements_sep_cons (t : Str) : elements (Separator :: t) = elements t := by
  simp [elements, components]

theorem dropWhile_sep_cases (p : Str) :
    p.dropWhile (fun x => x != Separator) = [] ∨
      ∃ t, p.dropWhile (fun x => x != Separator) = Separator :: t := by
  induction p with
  | nil => simp
  | cons c t ih =>
    by_cases h : c = Separator
    · right; exact ⟨t, by simp [List.dropWhile_cons, h]⟩
    · simpa [List.dropWhile_cons, h] using ih

theorem elements_eq (p : Str) :
    elements p =
      (if p.takeWhile (fun x => x != Separator) = [] ∨
          p.takeWhile (fun x => x != Separator) = ['.'] then []
       else [p.takeWhile (fun x => x != Separator)]) ++
      elements (p.dropWhile (fun x => x != Separator)) := by
  conv_lhs => rw [elements, components_eq]
  rcases dropWhile_sep_cases p with h | ⟨t, h⟩
  · rw [h, elements_nil]
    by_cases h1 : p.takeWhile (fun x => x != Separator) = [] ∨
        p.takeWhile (fun x => x != Separator) = ['.']
    · rw [if_pos h1]; rcases h1 with h1 | h1 <;> simp [h1]
    · rw [if_neg h1]; push_neg at h1; simp [List.filter_cons, h1.1, h1.2]
  · rw [h, elements_sep_cons]
    by_cases h1 : p.takeWhile (fun x => x != Separator) = [] ∨
        p.takeWhile (fun x => x != Separator) = ['.']
    · rw [if_pos h1]; rcases h1 with h1 | h1 <;> simp [h1, elements]
    · rw [if_neg h1]; push_neg at h1; simp [List.filter_cons, h1.1, h1.2, elements]

theorem dot_ne_sep : ('.' : Char) ≠ Separator := by decide

theorem takeWhile_cons_sep (t : Str) :
    (Separator :: t).takeWhile (fun x => x != Separator) = [] := by
  simp [List.takeWhile_cons]

theorem takeWhile_cons_ne (c : Char) (t : Str) (h : c ≠ Separator) :
    (c :: t).takeWhile (fun x => x != Separator)
      = c :: t.takeWhile (fun x => x != Separator) := by
  simp [List.takeWhile_cons, h]

theorem dropWhile_cons_sep (t : Str) :
    (Separator :: t).dropWhile (fun x => x != Separator) = Separator :: t := by
  simp [List.dropWhile_cons]

theorem dropWhile_cons_ne (c : Char) (t : Str) (h : c ≠ Separator) :
    (c :: t).dropWhile (fun x => x != Separator)
      = t.dropWhile (fun x => x != Separator) := by
  simp [List.dropWhile_cons, h]

theorem takeWhile_sep_eq_nil (t : Str) :
    t.takeWhile (fun x => x != Separator) = [] ↔ (t = [] ∨ t.head? = some Separator) := by
  cases t with
  | nil => simp
  | cons c t =>
    by_cases h : c = Separator
    · subst h; simp [takeWhile_cons_sep]
    · rw [takeWhile_cons_ne c t h]; simp [h]

theorem dropWhile_of_boundary (t : Str) (h : t = [] ∨ t.head? = some Separator) :
    t.dropWhile (fun x => x != Separator) = t := by
  cases t with
  | nil => rfl
  | cons c t =>
    have hc : c = Separator := by simpa using h
    subst hc; exact dropWhile_cons_sep t

theorem cleanLoop_eq_foldl (rooted : Bool) :
    ∀ (fuel : Nat) (rest : Str) (st : CleanState), rest.length ≤ fuel →
      cleanLoop rooted fuel rest st = (elements rest).foldl (stepElem rooted) st := by
  intro fuel
  induction fuel with
  | zero =>
    intro rest st h
    have : rest = [] := List.length_eq_zero.mp (Nat.le_zero.mp h)
    subst this
    simp [cleanLoop, elements_nil]
  | succ n ih =>
    intro rest st h
    cases rest with
    | nil => simp [cleanLoop, elements_nil]
    | cons c t =>
      have ht : t.length ≤ n := by simpa using h
      rw [cleanLoop]
      by_cases h1 : c = Separator
      · rw [if_pos h1, ih t st ht, h1, elements_sep_cons]
      · rw [if_neg h1]
        by_cases h2 : c = '.' ∧ (t = [] ∨ t.head? = some Separator)
        · rw [if_pos h2, ih t st ht]
          obtain ⟨hc, ht2⟩ := h2
          subst hc
          rw [elements_eq ('.' :: t)]
          have e1 : ('.' :: t).takeWhile (fun x => x != Separator) = ['.'] := by
            rw [takeWhile_cons_ne _ _ dot_ne_sep, (takeWhile_sep_eq_nil t).mpr ht2]
          have e2 : ('.' :: t).dropWhile (fun x => x != Separator) = t := by
            rw [dropWhile_cons_ne _ _ dot_ne_sep, dropWhile_of_boundary t ht2]
          rw [e1, e2]
          simp
        · rw [if_neg h2]
          by_cases h3 : c = '.' ∧ t.head? = some '.' ∧
              (t.tail = [] ∨ t.tail.head? = some Separator)
          · rw [if_pos h3]
            obtain ⟨hc, ht1, ht2⟩ := h3
            subst hc
            cases t with
            | nil => simp at ht1
            | cons d t2 =>
              simp at ht1; subst ht1
              simp only [List.tail_cons] at ht2 ⊢
              have ht2len : t2.length ≤ n := by simp at ht; omega
              have e1 : ('.' :: '.' :: t2).takeWhile (fun x => x != Separator) = ['.', '.'] := by
                rw [takeWhile_cons_ne _ _ dot_ne_sep, takeWhile_cons_ne _ _ dot_ne_sep,
                  (takeWhile_sep_eq_nil t2).mpr ht2]
              have e2 : ('.' :: '.' :: t2).dropWhile (fun x => x != Separator) = t2 := by
                rw [dropWhile_cons_ne _ _ dot_ne_sep, dropWhile_cons_ne _ _ dot_ne_sep,
                  dropWhile_of_boundary t2 ht2]
              rw [elements_eq ('.' :: '.' :: t2), e1, e2]
              have e3 : ¬ ((['.', '.'] : Str) = [] ∨ (['.', '.'] : Str) = ['.']) := by decide
              rw [if_neg e3]
              simp only [List.singleton_append, List.foldl_cons]
              have e4 : stepElem rooted st ['.', '.'] =
                  (if st.dotdot < st.out.length then
                    ⟨st.out.take (backtrack st.out st.dotdot (st.out.length - 1)), st.dotdot⟩
                  else if !rooted then
                    ⟨(if 0 < st.out.length then st.out ++ [Separator] else st.out) ++ ['.', '.'],
                      ((if 0 < st.out.length then st.out ++ [Separator] else st.out)
                        ++ ['.', '.']).length⟩
                  else st) := by
                simp [stepElem]
              rw [e4]
              by_cases h4 : st.dotdot < st.out.length
              · simp only [if_pos h4]; exact ih _ _ ht2len
              · simp only [if_neg h4]
                cases rooted
                · simp only [Bool.not_false, if_true]; exact ih _ _ ht2len
                · simp only [Bool.not_true, Bool.false_eq_true, if_false]; exact ih _ _ ht2len
          · rw [if_neg h3]
            have hlen : ((c :: t).dropWhile (fun x => x != Separator)).length ≤ n := by
              rw [dropWhile_cons_ne c t h1]
              exact le_trans (List.Sublist.length_le (List.dropWhile_sublist _)) ht
            have htw := takeWhile_cons_ne c t h1
            have hne1 : ¬ ((c :: t).takeWhile (fun x => x != Separator) = [] ∨
                (c :: t).takeWhile (fun x => x != Separator) = ['.']) := by
              rw [htw]
              intro hh
              rcases hh with hh | hh
              · simp at hh
              · simp only [List.cons.injEq] at hh
                exact h2 ⟨hh.1, (takeWhile_sep_eq_nil t).mp hh.2⟩
            have hne2 : (c :: t).takeWhile (fun x => x != Separator) ≠ ['.', '.'] := by
              rw [htw]
              intro hh
              simp only [List.cons.injEq] at hh
              obtain ⟨hc, ht1⟩ := hh
              cases t with
              | nil => simp at ht1
              | cons d t2 =>
                by_cases hd : d = Separator
                · subst hd; rw [takeWhile_cons_sep] at ht1; simp at ht1
                · rw [takeWhile_cons_ne d t2 hd] at ht1
                  simp only [List.cons.injEq] at ht1
                  exact h3 ⟨hc, by simp [ht1.1], by
                    simpa using (takeWhile_sep_eq_nil t2).mp ht1.2⟩
            rw [elements_eq (c :: t), if_neg hne1]
            simp only [List.singleton_append, List.foldl_cons]
            rw [ih _ _ hlen]
            congr 1
            simp [stepElem, hne2]

/-- The fuel of the loop of `Clean` is sufficient: any amount of fuel that is at
least the length of the unread input gives the same final state. -/
theorem cleanLoop_fuel (rooted : Bool) (f1 f2 : Nat) (rest : Str) (st : CleanState)
    (h1 : rest.length ≤ f1) (h2 : rest.length ≤ f2) :
    cleanLoop rooted f1 rest st = cleanLoop rooted f2 rest st := by
  rw [cleanLoop_eq_foldl rooted f1 rest st h1, cleanLoop_eq_foldl rooted f2 rest st h2]

/-! ### `strings.Join` -/

theorem stringsJoin_concat (sep : Str) (xs : List Str) (a : Str) (h : xs ≠ []) :
    stringsJoin sep (xs ++ [a]) = stringsJoin sep xs ++ sep ++ a := by
  induction xs with
  | nil => exact absurd rfl h
  | cons x xs ih =>
    cases xs with
    | nil => simp [stringsJoin]
    | cons y ys =>
      have := ih (by simp)
      simp only [List.cons_append] at this ⊢
      simp [stringsJoin, this]

theorem stringsJoin_append (sep : Str) (xs ys : List Str) (hx : xs ≠ []) (hy : ys ≠ []) :
    stringsJoin sep (xs ++ ys) = stringsJoin sep xs ++ sep ++ stringsJoin sep ys := by
  induction xs with
  | nil => exact absurd rfl hx
  | cons x xs ih =>
    cases xs with
    | nil =>
      cases ys with
      | nil => exact absurd rfl hy
      | cons y ys => simp [stringsJoin]
    | cons z zs =>
      have := ih (by simp)
      simp only [List.cons_append] at this ⊢
      simp [stringsJoin, this]

theorem stringsJoin_append_exists (sep : Str) (xs ys : List Str) :
    ∃ z, stringsJoin sep (xs ++ ys) = stringsJoin sep xs ++ z := by
  by_cases hx : xs = []
  · subst hx; exact ⟨stringsJoin sep ys, by simp [stringsJoin]⟩
  · by_cases hy : ys = []
    · subst hy; exact ⟨[], by simp⟩
    · exact ⟨sep ++ stringsJoin sep ys, by rw [stringsJoin_append sep xs ys hx hy]; simp⟩

theorem stringsJoin_eq_nil (sep : Str) (xs : List Str) (h : ∀ x ∈ xs, x ≠ []) :
    stringsJoin sep xs = [] ↔ xs = [] := by
  cases xs with
  | nil => simp [stringsJoin]
  | cons x xs =>
    have hx : x ≠ [] := h x (by simp)
    cases xs with
    | nil => simp [stringsJoin, hx]
    | cons y ys => simp [stringsJoin, hx]

/-! ### The backtracking loop -/

theorem backtrack_sep (pre seg : Str) (dd : Nat) (hseg : Separator ∉ seg)
    (hdd : dd ≤ pre.length) :
    ∀ k, k ≤ seg.length → backtrack (pre ++ Separator :: seg) dd (pre.length + k) = pre.length := by
  intro k
  induction k with
  | zero =>
    intro _
    cases hp : pre.length with
    | zero => simp [backtrack]
    | succ m =>
      simp only [Nat.add_zero]
      rw [backtrack, if_neg]
      rw [← hp]
      intro hh
      apply hh.2
      rw [List.getElem?_append_right (le_refl _)]
      simp
  | succ k ih =>
    intro hk
    have hk' : k < seg.length := hk
    rw [← Nat.add_assoc, backtrack, if_pos, ih (Nat.le_of_lt hk')]
    refine ⟨by omega, ?_⟩
    rw [List.getElem?_append_right (by omega)]
    have e : pre.length + k + 1 - pre.length = k + 1 := by omega
    rw [e, List.getElem?_cons_succ, List.getElem?_eq_getElem hk']
    intro hh
    apply hseg
    have := List.getElem_mem hk'
    simp only [Option.some.injEq] at hh
    rw [hh] at this; exact this

theorem backtrack_start (pre seg : Str) (hseg : Separator ∉ seg) :
    ∀ k, k < seg.length → backtrack (pre ++ seg) pre.length (pre.length + k) = pre.length := by
  intro k
  induction k with
  | zero =>
    intro _
    cases hp : pre.length with
    | zero => simp [backtrack]
    | succ m =>
      simp only [Nat.add_zero]
      rw [backtrack, if_neg]
      simp
  | succ k ih =>
    intro hk
    rw [← Nat.add_assoc, backtrack, if_pos, ih (by omega)]
    refine ⟨by omega, ?_⟩
    rw [List.getElem?_append_right (by omega)]
    have e : pre.length + k + 1 - pre.length = k + 1 := by omega
    rw [e, List.getElem?_eq_getElem hk]
    intro hh
    apply hseg
    have := List.getElem_mem hk
    simp only [Option.some.injEq] at hh
    rw [hh] at this; exact this

/-! ### The loop invariant -/

theorem Norm.elems_ne_nil_of_mem (s : Norm) (h : ∀ n ∈ s.names, IsName n) :
    ∀ x ∈ s.elems, x ≠ [] := by
  intro x hx
  simp only [Norm.elems, List.mem_append, List.mem_replicate] at hx
  rcases hx with ⟨_, hx⟩ | hx
  · subst hx; simp
  · exact (h x hx).1

theorem rep_init (rooted : Bool) :
    Rep rooted (if rooted then ⟨[Separator], 1⟩ else ⟨[], 0⟩) ⟨0, []⟩ := by
  cases rooted <;> simp [Rep, Norm.buf, Norm.elems, stringsJoin]

theorem rep_push_name (rooted : Bool) (st : CleanState) (s : Norm) (e : Str)
    (hrep : Rep rooted st s) (he : IsName e) :
    Rep rooted (stepElem rooted st e) (s.push rooted e) := by
  obtain ⟨hout, hdd, hups, hnames⟩ := hrep
  have hne := s.elems_ne_nil_of_mem hnames
  have hpush : s.push rooted e = ⟨s.ups, s.names ++ [e]⟩ := by
    simp [Norm.push, he.2.2.2]
  have helems : (⟨s.ups, s.names ++ [e]⟩ : Norm).elems = s.elems ++ [e] := by
    simp [Norm.elems]
  rw [hpush]
  refine ⟨?_, ?_, hups, ?_⟩
  · simp only [stepElem, if_neg he.2.2.2, Norm.buf, helems]
    by_cases hnil : s.elems = []
    · have hout' : st.out = if rooted then [Separator] else [] := by
        rw [hout, Norm.buf, hnil]; simp [stringsJoin]
      rw [hnil]
      cases rooted <;> simp [hout', stringsJoin]
    · have hj : stringsJoin [Separator] s.elems ≠ [] :=
        fun h => hnil ((stringsJoin_eq_nil _ _ hne).mp h)
      rw [stringsJoin_concat _ _ _ hnil]
      have hlen : 0 < (stringsJoin [Separator] s.elems).length :=
        List.length_pos.mpr hj
      cases rooted
      · have : st.out.length ≠ 0 := by rw [hout]; simp [Norm.buf]; exact hj
        simp [this, hout, Norm.buf, hj]
      · have : st.out.length ≠ 1 := by rw [hout]; simp [Norm.buf]; exact hj
        simp [this, hout, Norm.buf, hj]
  · simpa [stepElem, he.2.2.2] using hdd
  · intro n hn
    simp only [List.mem_append, List.mem_singleton] at hn
    rcases hn with hn | hn
    · exact hnames n hn
    · subst hn; exact he

theorem stringsJoin_ups_eq_nil (k : Nat) :
    stringsJoin [Separator] (List.replicate k ['.', '.']) = [] ↔ k = 0 := by
  rw [stringsJoin_eq_nil]
  · simp
  · intro x hx
    rw [List.mem_replicate] at hx
    rw [hx.2]; simp

theorem rep_push_up (rooted : Bool) (st : CleanState) (s : Norm)
    (hrep : Rep rooted st s) :
    Rep rooted (stepElem rooted st ['.', '.']) (s.push rooted ['.', '.']) := by
  obtain ⟨hout, hdd, hups, hnames⟩ := hrep
  have hne := s.elems_ne_nil_of_mem hnames
  rcases List.eq_nil_or_concat s.names with hnil | ⟨L, b, hL⟩
  · -- no ordinary segment to remove
    have helems : s.elems = List.replicate s.ups ['.', '.'] := by
      simp [Norm.elems, hnil]
    cases rooted
    · -- not rooted: append `..`
      have hpush : s.push false ['.', '.'] = ⟨s.ups + 1, []⟩ := by
        simp [Norm.push, hnil]
      have hout' : st.out = stringsJoin [Separator] (List.replicate s.ups ['.', '.']) := by
        rw [hout]; simp [Norm.buf, helems]
      have hdd' : st.dotdot = st.out.length := by rw [hdd, hout']; simp
      have hstep : stepElem false st ['.', '.'] =
          ⟨(if 0 < st.out.length then st.out ++ [Separator] else st.out) ++ ['.', '.'],
           ((if 0 < st.out.length then st.out ++ [Separator] else st.out)
              ++ ['.', '.']).length⟩ := by
        simp [stepElem, hdd']
      have hnew : (if 0 < st.out.length then st.out ++ [Separator] else st.out) ++ ['.', '.']
          = stringsJoin [Separator] (List.replicate (s.ups + 1) ['.', '.']) := by
        rw [List.replicate_succ']
        by_cases hk : s.ups = 0
        · have : st.out = [] := by rw [hout', hk]; simp [stringsJoin]
          simp [this, hk, stringsJoin]
        · have hrn : List.replicate s.ups (['.', '.'] : Str) ≠ [] := by
            simp [hk]
          have : 0 < st.out.length := by
            rw [hout']
            exact List.length_pos.mpr (fun h => hk ((stringsJoin_ups_eq_nil _).mp h))
          rw [if_pos this, stringsJoin_concat _ _ _ hrn, hout']
      rw [hpush, hstep, hnew]
      refine ⟨?_, ?_, ?_, ?_⟩
      · simp [Norm.buf, Norm.elems]
      · simp
      · intro h; exact absurd h (by decide)
      · intro n hn; simp at hn
    · -- rooted: the element is dropped
      have hpush : s.push true ['.', '.'] = s := by
        simp [Norm.push, hnil]
      have h0 := hups rfl
      have hout' : st.out = [Separator] := by
        rw [hout]; simp [Norm.buf, helems, h0, stringsJoin]
      have hstep : stepElem true st ['.', '.'] = st := by
        simp [stepElem, hdd, hout']
      rw [hpush, hstep]
      exact ⟨hout, hdd, hups, hnames⟩
  · -- remove the last ordinary segment `b`
    have hb : IsName b := hnames b (by rw [hL]; simp)
    have hLn : ∀ n ∈ L, IsName n := fun n hn => hnames n (by rw [hL]; simp [hn])
    have hpush : s.push rooted ['.', '.'] = ⟨s.ups, L⟩ := by
      simp [Norm.push, hL]
    have helems : s.elems = (List.replicate s.ups ['.', '.'] ++ L) ++ [b] := by
      simp [Norm.elems, hL]
    have hbpos : 0 < b.length := List.length_pos.mpr hb.1
    -- the buffer is `pre ++ b` or `pre ++ '/' :: b`, where `pre` is the new buffer
    have key : st.dotdot < st.out.length ∧
        st.out.take (backtrack st.out st.dotdot (st.out.length - 1))
          = (⟨s.ups, L⟩ : Norm).buf rooted := by
      by_cases hpre : List.replicate s.ups (['.', '.'] : Str) ++ L = []
      · have hk : s.ups = 0 := by
          have := (List.append_eq_nil.mp hpre).1
          simpa using this
        have hLnil : L = [] := (List.append_eq_nil.mp hpre).2
        have hout' : st.out = (if rooted then [Separator] else []) ++ b := by
          rw [hout, Norm.buf, helems, hpre]; simp [stringsJoin]
        have hdd' : st.dotdot = (if rooted then [Separator] else ([] : Str)).length := by
          rw [hdd, hk]; cases rooted <;> simp [stringsJoin]
        have hbuf : (⟨s.ups, L⟩ : Norm).buf rooted = if rooted then [Separator] else [] := by
          simp [Norm.buf, Norm.elems, hk, hLnil, stringsJoin]
        rw [hbuf, hout', hdd']
        constructor
        · simp; exact hbpos
        · have e : ((if rooted then [Separator] else ([] : Str)) ++ b).length - 1
              = (if rooted then [Separator] else ([] : Str)).length + (b.length - 1) := by
            simp; omega
          rw [e, backtrack_start _ _ hb.2.1 _ (by omega)]
          exact List.take_left' rfl
      · have hout' : st.out = ((if rooted then [Separator] else []) ++
            stringsJoin [Separator] (List.replicate s.ups ['.', '.'] ++ L))
              ++ Separator :: b := by
          rw [hout, Norm.buf, helems, stringsJoin_concat _ _ _ hpre]; simp
        have hbuf : (⟨s.ups, L⟩ : Norm).buf rooted = (if rooted then [Separator] else []) ++
            stringsJoin [Separator] (List.replicate s.ups ['.', '.'] ++ L) := by
          simp [Norm.buf, Norm.elems]
        have hddle : st.dotdot ≤ ((if rooted then [Separator] else []) ++
            stringsJoin [Separator] (List.replicate s.ups ['.', '.'] ++ L)).length := by
          rw [hdd]
          cases rooted
          · obtain ⟨z, hz⟩ := stringsJoin_append_exists [Separator]
              (List.replicate s.ups ['.', '.']) L
            simp [hz]
          · simp
        rw [hbuf, hout']
        constructor
        · simp only [List.length_append, List.length_cons] at hddle ⊢; omega
        · have e : (((if rooted then [Separator] else []) ++
              stringsJoin [Separator] (List.replicate s.ups ['.', '.'] ++ L))
                ++ Separator :: b).length - 1
              = ((if rooted then [Separator] else []) ++
                stringsJoin [Separator] (List.replicate s.ups ['.', '.'] ++ L)).length
                + b.length := by
            simp only [List.length_append, List.length_cons]; omega
          rw [e, backtrack_sep _ _ _ hb.2.1 hddle _ (le_refl _)]
          exact List.take_left' rfl
    have hstep : stepElem rooted st ['.', '.'] =
        ⟨st.out.take (backtrack st.out st.dotdot (st.out.length - 1)), st.dotdot⟩ := by
      simp [stepElem, key.1]
    rw [hpush, hstep]
    exact ⟨key.2, hdd, hups, hLn⟩

theorem rep_step (rooted : Bool) (st : CleanState) (s : Norm) (e : Str)
    (hrep : Rep rooted st s) (he : IsElem e) :
    Rep rooted (stepElem rooted st e) (s.push rooted e) := by
  by_cases h : e = ['.', '.']
  · subst h; exact rep_push_up rooted st s hrep
  · exact rep_push_name rooted st s e hrep ⟨he.1, he.2.1, he.2.2, h⟩

theorem rep_foldl (rooted : Bool) (es : List Str) :
    ∀ (st : CleanState) (s : Norm), Rep rooted st s → (∀ e ∈ es, IsElem e) →
      Rep rooted (es.foldl (stepElem rooted) st) (es.foldl (Norm.push rooted) s) := by
  induction es with
  | nil => intro st s h _; simpa using h
  | cons e es ih =>
    intro st s h hes
    simp only [List.foldl_cons]
    exact ih _ _ (rep_step rooted st s e h (hes e (by simp)))
      (fun x hx => hes x (by simp [hx]))

/-! ### `Clean` computes the rendering of the normalised element sequence -/

theorem components_no_sep (p : Str) : ∀ s ∈ components p, Separator ∉ s := by
  induction p with
  | nil => simp [components]
  | cons c t ih =>
    intro s hs
    by_cases h : c = Separator
    · simp only [components, if_pos h, List.mem_cons] at hs
      rcases hs with hs | hs
      · subst hs; simp
      · exact ih s hs
    · simp only [components, if_neg h, List.mem_cons] at hs
      rcases hs with hs | hs
      · subst hs
        intro hmem
        simp only [List.mem_cons] at hmem
        rcases hmem with hmem | hmem
        · exact h hmem.symm
        · cases hc : components t with
          | nil => simp [hc] at hmem
          | cons x xs =>
            rw [hc] at hmem
            exact ih x (by simp [hc]) (by simpa using hmem)
      · exact ih s (List.mem_of_mem_tail hs)

theorem elements_isElem (p : Str) : ∀ e ∈ elements p, IsElem e := by
  intro e he
  simp only [elements, List.mem_filter, decide_eq_true_eq] at he
  exact ⟨he.2.1, components_no_sep p e he.1, he.2.2⟩

theorem normalize_rep (rooted : Bool) (es : List Str) (h : ∀ e ∈ es, IsElem e) :
    Rep rooted (es.foldl (stepElem rooted) (if rooted then ⟨[Separator], 1⟩ else ⟨[], 0⟩))
      (normalize rooted es) :=
  rep_foldl rooted es _ _ (rep_init rooted) h

theorem normalize_valid (rooted : Bool) (es : List Str) (h : ∀ e ∈ es, IsElem e) :
    (rooted = true → (normalize rooted es).ups = 0) ∧
      ∀ n ∈ (normalize rooted es).names, IsName n :=
  ⟨(normalize_rep rooted es h).2.2.1, (normalize_rep rooted es h).2.2.2⟩

/-- The function `Clean` renders the normalised sequence of the elements of its argument. -/
theorem Clean_eq_render (p : Str) :
    Clean p = (normalize (IsAbs p) (elements p)).render (IsAbs p) := by
  cases p with
  | nil => simp [Clean, IsAbs, elements_nil, normalize, Norm.render, Norm.buf, Norm.elems,
      stringsJoin]
  | cons c t =>
    by_cases hc : c = Separator
    · subst hc
      have hr : IsAbs (Separator :: t) = true := by simp [IsAbs]
      have hrep := normalize_rep true (elements t) (elements_isElem t)
      rw [hr, elements_sep_cons]
      simp only [Clean, IsPathSeparator, beq_self_eq_true, if_true]
      rw [cleanLoop_eq_foldl true _ t _ (by simp)]
      simp only [if_true] at hrep
      rw [hrep.1, Norm.render]
    · have hr : IsAbs (c :: t) = false := by simp [IsAbs, hc]
      have hrep := normalize_rep false (elements (c :: t)) (elements_isElem (c :: t))
      rw [hr]
      have hb : (c == Separator) = false := by simp [hc]
      simp only [Clean, IsPathSeparator, hb, Bool.false_eq_true, if_false]
      rw [cleanLoop_eq_foldl false _ (c :: t) _ (le_refl _)]
      simp only [Bool.false_eq_true, if_false] at hrep
      rw [hrep.1, Norm.render]

/-! ### Components and elements of composed paths -/

theorem components_append_sep (a b : Str) :
    components (a ++ Separator :: b) = components a ++ components b := by
  induction a with
  | nil => simp [components]
  | cons c a ih =>
    by_cases h : c = Separator
    · simp [components, h, ih]
    · cases hc : components a with
      | nil => exact absurd hc (components_ne_nil a)
      | cons x xs =>
        rw [List.cons_append, components, if_neg h, ih, components, if_neg h, hc]
        simp

theorem elements_append_sep (a b : Str) :
    elements (a ++ Separator :: b) = elements a ++ elements b := by
  simp [elements, components_append_sep]

theorem components_of_no_sep (e : Str) (h : Separator ∉ e) : components e = [e] := by
  induction e with
  | nil => simp [components]
  | cons c t ih =>
    have hc : c ≠ Separator := fun hc => h (by simp [hc])
    have ht : Separator ∉ t := fun ht => h (by simp [ht])
    simp [components, hc, ih ht]

theorem elements_of_isElem (e : Str) (h : IsElem e) : elements e = [e] := by
  simp [elements, components_of_no_sep e h.2.1, h.1, h.2.2]

theorem elements_stringsJoin (xs : List Str) (h : ∀ x ∈ xs, IsElem x) :
    elements (stringsJoin [Separator] xs) = xs := by
  induction xs with
  | nil => simp [stringsJoin, elements_nil]
  | cons x xs ih =>
    cases xs with
    | nil => simpa [stringsJoin] using elements_of_isElem x (h x (by simp))
    | cons y ys =>
      have hx := elements_of_isElem x (h x (by simp))
      have := ih (fun z hz => h z (by simp [hz]))
      simp only [stringsJoin, List.append_assoc, List.singleton_append]
      rw [elements_append_sep, hx, this]; simp

theorem isName_isElem (e : Str) (h : IsName e) : IsElem e := ⟨h.1, h.2.1, h.2.2.1⟩

theorem isElem_up : IsElem ['.', '.'] := by decide

/-! ### Normal forms -/

theorem foldl_push_names (rooted : Bool) (ns : List Str) (h : ∀ n ∈ ns, IsName n) :
    ∀ s : Norm, ns.foldl (Norm.push rooted) s = ⟨s.ups, s.names ++ ns⟩ := by
  induction ns with
  | nil => intro s; simp
  | cons n ns ih =>
    intro s
    have hn : n ≠ ['.', '.'] := (h n (by simp)).2.2.2
    simp only [List.foldl_cons]
    rw [ih (fun x hx => h x (by simp [hx]))]
    simp [Norm.push, hn]

theorem foldl_push_ups (k : Nat) :
    ∀ k0 : Nat, (List.replicate k ['.', '.']).foldl (Norm.push false) ⟨k0, []⟩ = ⟨k0 + k, []⟩ := by
  induction k with
  | zero => intro k0; simp
  | succ k ih =>
    intro k0
    simp only [List.replicate_succ, List.foldl_cons]
    have : Norm.push false ⟨k0, []⟩ ['.', '.'] = ⟨k0 + 1, []⟩ := by simp [Norm.push]
    rw [this, ih]
    congr 1; omega

theorem normalize_elems (rooted : Bool) (s : Norm) (h : s.Valid rooted) :
    normalize rooted s.elems = s := by
  obtain ⟨hu, hn⟩ := h
  simp only [normalize, Norm.elems, List.foldl_append]
  cases rooted
  · rw [foldl_push_ups, foldl_push_names false _ hn]; simp
  · rw [hu rfl, List.replicate_zero, List.foldl_nil, foldl_push_names true _ hn]
    cases s; simp at hu ⊢; exact (hu).symm

theorem Norm.Valid.isElem {rooted : Bool} {s : Norm} (h : s.Valid rooted) :
    ∀ e ∈ s.elems, IsElem e := by
  intro e he
  simp only [Norm.elems, List.mem_append, List.mem_replicate] at he
  rcases he with ⟨_, he⟩ | he
  · subst he; exact isElem_up
  · exact isName_isElem e (h.2 e he)

theorem normalize_isValid (rooted : Bool) (es : List Str) (h : ∀ e ∈ es, IsElem e) :
    (normalize rooted es).Valid rooted :=
  normalize_valid rooted es h

theorem render_rooted (s : Norm) :
    s.render true = Separator :: stringsJoin [Separator] s.elems := by
  simp [Norm.render, Norm.buf]

theorem render_relative (s : Norm) (h : s.Valid false) :
    s.render false = if s.elems = [] then ['.'] else stringsJoin [Separator] s.elems := by
  have := stringsJoin_eq_nil [Separator] s.elems (fun x hx => (h.isElem x hx).1)
  by_cases he : s.elems = []
  · simp [Norm.render, Norm.buf, he, stringsJoin]
  · have hj : stringsJoin [Separator] s.elems ≠ [] := fun hj => he (this.mp hj)
    simp [Norm.render, Norm.buf, he, hj]

theorem elements_render (rooted : Bool) (s : Norm) (h : s.Valid rooted) :
    elements (s.render rooted) = s.elems := by
  cases rooted
  · rw [render_relative s h]
    by_cases he : s.elems = []
    · rw [if_pos he, he]; decide
    · rw [if_neg he, elements_stringsJoin _ h.isElem]
  · rw [render_rooted, elements_sep_cons, elements_stringsJoin _ h.isElem]

theorem head_stringsJoin (sep : Str) (x : Str) (xs : List Str) (hx : x ≠ []) :
    (stringsJoin sep (x :: xs)).head? = x.head? := by
  cases x with
  | nil => exact absurd rfl hx
  | cons c t => cases xs <;> simp [stringsJoin]

theorem IsAbs_render (rooted : Bool) (s : Norm) (h : s.Valid rooted) :
    IsAbs (s.render rooted) = rooted := by
  cases rooted
  · rw [render_relative s h]
    cases he : s.elems with
    | nil => simp [IsAbs, dot_ne_sep]
    | cons x xs =>
      have hx : IsElem x := h.isElem x (by simp [he])
      have hh := head_stringsJoin [Separator] x xs hx.1
      simp only [reduceCtorEq, if_false, IsAbs, decide_eq_false_iff_not, hh]
      cases x with
      | nil => exact absurd rfl hx.1
      | cons c t =>
        intro hc
        apply hx.2.1
        simp only [List.head?_cons, Option.some.injEq] at hc
        simp [hc]
  · simp [render_rooted, IsAbs]

/-- A rendered well-formed sequence is a fixed point of `Clean`. -/
theorem Clean_render (rooted : Bool) (s : Norm) (h : s.Valid rooted) :
    Clean (s.render rooted) = s.render rooted := by
  rw [Clean_eq_render, IsAbs_render rooted s h, elements_render rooted s h,
    normalize_elems rooted s h]

/-- The function `Clean` is idempotent. -/
theorem Clean_idem (p : Str) : Clean (Clean p) = Clean p := by
  rw [Clean_eq_render p]
  exact Clean_render _ _ (normalize_isValid _ _ (elements_isElem p))

/-- A fixed point of `Clean` is the rendering of a well-formed sequence, whose
elements are the elements of the path. -/
theorem clean_normal_form (p : Str) (h : Clean p = p) :
    ∃ s : Norm, s.Valid (IsAbs p) ∧ p = s.render (IsAbs p) ∧ elements p = s.elems := by
  have hv := normalize_isValid (IsAbs p) (elements p) (elements_isElem p)
  refine ⟨normalize (IsAbs p) (elements p), hv, ?_, ?_⟩
  · rw [← Clean_eq_render, h]
  · have := elements_render (IsAbs p) _ hv
    rw [← Clean_eq_render, h] at this
    exact this

/-! ### Appending ordinary segments to a clean path -/

theorem Clean_ne_nil (p : Str) : Clean p ≠ [] := by
  rw [Clean_eq_render, Norm.render]
  split
  · simp
  · intro h; simp_all

theorem IsAbs_append (p q : Str) (h : p ≠ []) : IsAbs (p ++ q) = IsAbs p := by
  cases p with
  | nil => exact absurd rfl h
  | cons c t => simp [IsAbs]

theorem elements_names (q : Str) (hq : (['.', '.'] : Str) ∉ elements q) :
    ∀ n ∈ elements q, IsName n := by
  intro n hn
  have := elements_isElem q n hn
  exact ⟨this.1, this.2.1, this.2.2, fun h => hq (h ▸ hn)⟩

/-- Cleaning a clean path `p` followed by a separator and a path `q` without `..`
element appends the elements of `q` to `p`. -/
theorem Clean_append (p : Str) (hp : Clean p = p) (q : Str)
    (hq : (['.', '.'] : Str) ∉ elements q) :
    Clean (p ++ Separator :: q) =
      if elements q = [] then p
      else if p = [Separator] then Separator :: stringsJoin [Separator] (elements q)
      else if p = ['.'] then stringsJoin [Separator] (elements q)
      else p ++ Separator :: stringsJoin [Separator] (elements q) := by
  obtain ⟨s, hv, hrender, helems⟩ := clean_normal_form p hp
  have hns := elements_names q hq
  have hpne : p ≠ [] := by rw [← hp]; exact Clean_ne_nil p
  have hX : elements (p ++ Separator :: q) = s.elems ++ elements q := by
    rw [elements_append_sep, helems]
  have hnorm : normalize (IsAbs p) (s.elems ++ elements q)
      = ⟨s.ups, s.names ++ elements q⟩ := by
    have := normalize_elems (IsAbs p) s hv
    rw [normalize] at this
    rw [normalize, List.foldl_append, this, foldl_push_names _ _ hns]
  rw [Clean_eq_render, IsAbs_append p _ hpne, hX, hnorm]
  by_cases hne : elements q = []
  · rw [if_pos hne, hne, List.append_nil]
    exact hrender.symm
  rw [if_neg hne]
  have helems' : (⟨s.ups, s.names ++ elements q⟩ : Norm).elems = s.elems ++ elements q := by
    simp [Norm.elems]
  have hv' : (⟨s.ups, s.names ++ elements q⟩ : Norm).Valid (IsAbs p) := by
    refine ⟨hv.1, ?_⟩
    intro n hn
    simp only [List.mem_append] at hn
    rcases hn with hn | hn
    · exact hv.2 n hn
    · exact hns n hn
  have hjne : s.elems ≠ [] → stringsJoin [Separator] s.elems ≠ [] := fun h1 h2 =>
    h1 ((stringsJoin_eq_nil _ _ (fun x hx => (hv.isElem x hx).1)).mp h2)
  cases hr : IsAbs p
  · rw [hr] at hv hv' hrender
    rw [render_relative _ hv', helems']
    rw [render_relative _ hv] at hrender
    have hne' : s.elems ++ elements q ≠ [] := by simp [hne]
    rw [if_neg hne']
    by_cases he : s.elems = []
    · rw [if_pos he] at hrender
      rw [he, List.nil_append, hrender]
      simp [Separator]
    · rw [if_neg he] at hrender
      have h1 : p ≠ [Separator] := by
        intro h; rw [h] at hr; simp [IsAbs] at hr
      have h2 : p ≠ ['.'] := by
        intro h
        rw [h] at helems
        have : elements ['.'] = [] := by decide
        exact he (by rw [← helems, this])
      rw [if_neg h1, if_neg h2, stringsJoin_append _ _ _ he hne, ← hrender]
      simp
  · rw [hr] at hv hv' hrender
    rw [render_rooted, helems']
    rw [render_rooted] at hrender
    by_cases he : s.elems = []
    · rw [he] at hrender
      have : p = [Separator] := by simpa [stringsJoin] using hrender
      rw [if_pos this, he, List.nil_append]
    · have h1 : p ≠ [Separator] := by
        intro h
        rw [h] at hrender
        simp only [List.cons.injEq, true_and] at hrender
        exact hjne he hrender.symm
      have h2 : p ≠ ['.'] := by
        intro h; rw [h] at hr; simp [IsAbs, dot_ne_sep] at hr
      rw [if_neg h1, if_neg h2, stringsJoin_append _ _ _ he hne, hrender]
      simp

/-- Cleaning a clean path followed by a separator and ordinary segments appends
the segments. -/
theorem Clean_append_names (p : Str) (hp : Clean p = p) (ns : List Str)
    (hns : ∀ n ∈ ns, IsName n) (hne : ns ≠ []) :
    Clean (p ++ Separator :: stringsJoin [Separator] ns) =
      if p = [Separator] then Separator :: stringsJoin [Separator] ns
      else if p = ['.'] then stringsJoin [Separator] ns
      else p ++ Separator :: stringsJoin [Separator] ns := by
  have hel := elements_stringsJoin ns (fun n hn => isName_isElem n (hns n hn))
  have := Clean_append p hp (stringsJoin [Separator] ns)
    (by rw [hel]; exact fun h => (hns _ h).2.2.2 rfl)
  rw [hel, if_neg hne] at this
  exact this

/-! ### `Join` -/

theorem Join_cons_ne (e : Str) (es : List Str) (h : e ≠ []) :
    Join (e :: es) = Clean (stringsJoin [Separator] (e :: es)) := by
  simp [Join, h]

theorem Join_nil_cons (es : List Str) : Join ([] :: es) = Join es := by
  simp [Join]

/-- A result of `Join` is empty or a fixed point of `Clean`. -/
theorem Join_clean (es : List Str) : Join es = [] ∨ Clean (Join es) = Join es := by
  induction es with
  | nil => left; rfl
  | cons e es ih =>
    by_cases h : e = []
    · subst h; rw [Join_nil_cons]; exact ih
    · right; rw [Join_cons_ne e es h]; exact Clean_idem _

theorem isName_clean (e : Str) (h : IsName e) : Clean e = e := by
  have hv : (⟨0, [e]⟩ : Norm).Valid false :=
    ⟨fun hh => by simp at hh, fun n hn => by simp at hn; subst hn; exact h⟩
  have := Clean_render false ⟨0, [e]⟩ hv
  have hr : (⟨0, [e]⟩ : Norm).render false = e := by
    rw [render_relative _ hv]; simp [Norm.elems, stringsJoin]
  rw [hr] at this; exact this

/-- Joining a result of `Join` with one ordinary segment. -/
theorem Join_pair_name (out : Str) (hout : out = [] ∨ Clean out = out) (e : Str)
    (he : IsName e) :
    Join [out, e] =
      (if out = [] ∨ out = ['.'] then []
       else if out = [Separator] then [Separator] else out ++ [Separator]) ++ e := by
  by_cases h0 : out = []
  · subst h0
    rw [Join_nil_cons, Join_cons_ne e [] he.1]
    simp [stringsJoin, isName_clean e he]
  · have hc : Clean out = out := hout.resolve_left h0
    rw [Join_cons_ne out _ h0]
    have := Clean_append_names out hc [e] (fun n hn => by simp at hn; subst hn; exact he)
      (by simp)
    simp only [stringsJoin] at this ⊢
    rw [List.append_assoc, List.singleton_append, this]
    by_cases h1 : out = [Separator]
    · subst h1; simp [Separator]
    · by_cases h2 : out = ['.']
      · subst h2; simp [Separator]
      · simp [h0, h1, h2]

/-! ### Clean paths without `..` -/

theorem up_not_mem_ups {s : Norm} (h : (['.', '.'] : Str) ∉ s.elems) : s.ups = 0 := by
  by_contra hk
  apply h
  rw [Norm.elems, List.mem_append, List.mem_replicate]
  left; exact ⟨hk, rfl⟩

theorem mem_components_of_mem_elements (p e : Str) (h : e ∈ elements p) : e ∈ components p := by
  simp only [elements, List.mem_filter] at h
  exact h.1

/-- A clean relative path without `..` component is `.` or ordinary segments
joined by separators. -/
theorem clean_relative_names (d : Str) (hd : Clean d = d) (hrel : IsAbs d = false)
    (hno : (['.', '.'] : Str) ∉ components d) :
    ∃ ns : List Str, (∀ n ∈ ns, IsName n) ∧ elements d = ns ∧
      d = if ns = [] then ['.'] else stringsJoin [Separator] ns := by
  obtain ⟨s, hv, hrender, helems⟩ := clean_normal_form d hd
  rw [hrel] at hv hrender
  have hk : s.ups = 0 := up_not_mem_ups (by
    rw [← helems]; exact fun h => hno (mem_components_of_mem_elements d _ h))
  have hel : s.elems = s.names := by simp [Norm.elems, hk]
  refine ⟨s.names, hv.2, by rw [helems, hel], ?_⟩
  rw [render_relative s hv, hel] at hrender
  exact hrender

/-- A clean absolute path is the separator followed by ordinary segments joined
by separators. -/
theorem clean_rooted_names (p : Str) (hp : Clean p = p) (hr : IsAbs p = true) :
    ∃ ns : List Str, (∀ n ∈ ns, IsName n) ∧ elements p = ns ∧
      p = Separator :: stringsJoin [Separator] ns := by
  obtain ⟨s, hv, hrender, helems⟩ := clean_normal_form p hp
  rw [hr] at hv hrender
  have hel : s.elems = s.names := by simp [Norm.elems, hv.1 rfl]
  refine ⟨s.names, hv.2, by rw [helems, hel], ?_⟩
  rw [render_rooted, hel] at hrender
  exact hrender

/-! ## Theory of `Rel` -/

theorem takeWhile_ne_nil_of_head (t : Str) (hne : t ≠ []) (ht : t.head? ≠ some Separator) :
    t.takeWhile (fun x => x != Separator) ≠ [] := by
  cases t with
  | nil => exact absurd rfl hne
  | cons c r =>
    have hc : c ≠ Separator := fun h => ht (by simp [h])
    rw [takeWhile_cons_ne c r hc]
    simp

/-- With nothing left of the base, the loop of `Rel` stops at a target that does
not start with a separator. -/
theorem relLoop_nil_left (fuel : Nat) (t : Str) (ht : t.head? ≠ some Separator) :
    relLoop fuel [] t = ⟨[], [], t⟩ := by
  cases fuel with
  | zero => rfl
  | succ n =>
    rw [relLoop]
    by_cases hne : t = []
    · subst hne; simp
    · rw [if_pos (Or.inr hne)]
      have := takeWhile_ne_nil_of_head t hne ht
      simp only [List.takeWhile_nil]
      rw [if_pos this]

theorem length_drop_dropWhile_le (b : Str) :
    ((b.dropWhile (fun x => x != Separator)).drop 1).length ≤ b.length - 1 := by
  rw [List.length_drop]
  exact Nat.sub_le_sub_right (List.Sublist.length_le (List.dropWhile_sublist _)) 1

/-- The fuel of the loop of `Rel` is sufficient: any amount of fuel that is at
least the length of what is left of the base and of the target gives the same
position. -/
theorem relLoop_fuel (f1 : Nat) :
    ∀ (f2 : Nat) (b t : Str), b.length + t.length ≤ f1 → b.length + t.length ≤ f2 →
      relLoop f1 b t = relLoop f2 b t := by
  have hnil : ∀ (f : Nat) (b t : Str), b.length + t.length ≤ 0 →
      relLoop f b t = ⟨[], [], []⟩ := by
    intro f b t h
    have hb : b = [] := List.length_eq_zero.mp (by omega)
    have ht : t = [] := List.length_eq_zero.mp (by omega)
    subst hb; subst ht
    exact relLoop_nil_left f [] (by simp)
  induction f1 with
  | zero =>
    intro f2 b t h1 _
    rw [hnil 0 b t h1, hnil f2 b t h1]
  | succ n ih =>
    intro f2 b t h1 h2
    cases f2 with
    | zero => rw [hnil (n + 1) b t h2, hnil 0 b t h2]
    | succ m =>
      rw [relLoop, relLoop]
      by_cases hc : b ≠ [] ∨ t ≠ []
      · rw [if_pos hc, if_pos hc]
        by_cases hd : t.takeWhile (fun x => x != Separator) ≠ b.takeWhile (fun x => x != Separator)
        · rw [if_pos hd, if_pos hd]
        · rw [if_neg hd, if_neg hd]
          have hlb := length_drop_dropWhile_le b
          have hlt := length_drop_dropWhile_le t
          have hpos : 0 < b.length + t.length := by
            rcases hc with hc | hc
            · have := List.length_pos.mpr hc; omega
            · have := List.length_pos.mpr hc; omega
          have hsum : ((b.dropWhile (fun x => x != Separator)).drop 1).length
              + ((t.dropWhile (fun x => x != Separator)).drop 1).length
              ≤ b.length + t.length - 1 := by
            rcases hc with hc | hc
            · have := List.length_pos.mpr hc
              have := List.Sublist.length_le (List.dropWhile_sublist
                (fun x => x != Separator) (l := t))
              have h3 : ((t.dropWhile (fun x => x != Separator)).drop 1).length ≤ t.length := by
                rw [List.length_drop]; omega
              omega
            · have := List.length_pos.mpr hc
              have := List.Sublist.length_le (List.dropWhile_sublist
                (fun x => x != Separator) (l := b))
              have h3 : ((b.dropWhile (fun x => x != Separator)).drop 1).length ≤ b.length := by
                rw [List.length_drop]; omega
              omega
          exact ih m _ _ (by omega) (by omega)
      · rw [if_neg hc, if_neg hc]

theorem takeWhile_no_sep (x rest : Str) (hx : Separator ∉ x) :
    (x ++ Separator :: rest).takeWhile (fun c => c != Separator) = x := by
  induction x with
  | nil => exact takeWhile_cons_sep rest
  | cons c t ih =>
    have hc : c ≠ Separator := fun h => hx (by simp [h])
    rw [List.cons_append, takeWhile_cons_ne c _ hc, ih (fun h => hx (by simp [h]))]

theorem dropWhile_no_sep (x rest : Str) (hx : Separator ∉ x) :
    (x ++ Separator :: rest).dropWhile (fun c => c != Separator) = Separator :: rest := by
  induction x with
  | nil => exact dropWhile_cons_sep rest
  | cons c t ih =>
    have hc : c ≠ Separator := fun h => hx (by simp [h])
    rw [List.cons_append, dropWhile_cons_ne c _ hc, ih (fun h => hx (by simp [h]))]

theorem takeWhile_no_sep_all (x : Str) (hx : Separator ∉ x) :
    x.takeWhile (fun c => c != Separator) = x := by
  induction x with
  | nil => rfl
  | cons c t ih =>
    have hc : c ≠ Separator := fun h => hx (by simp [h])
    rw [takeWhile_cons_ne c _ hc, ih (fun h => hx (by simp [h]))]

theorem dropWhile_no_sep_all (x : Str) (hx : Separator ∉ x) :
    x.dropWhile (fun c => c != Separator) = [] := by
  induction x with
  | nil => rfl
  | cons c t ih =>
    have hc : c ≠ Separator := fun h => hx (by simp [h])
    rw [dropWhile_cons_ne c _ hc, ih (fun h => hx (by simp [h]))]

/-- One iteration of the loop of `Rel` over a common first element. -/
theorem relLoop_step (fuel : Nat) (x b t : Str) (hx : Separator ∉ x) :
    relLoop (fuel + 1) (x ++ Separator :: b) (x ++ Separator :: t) = relLoop fuel b t := by
  rw [relLoop, if_pos (Or.inl (by simp))]
  simp only [takeWhile_no_sep x _ hx, dropWhile_no_sep x _ hx, ne_eq, not_true_eq_false,
    if_false, List.drop_succ_cons, List.drop_zero]

/-- The last iteration of the loop of `Rel` when the base is used up. -/
theorem relLoop_last (fuel : Nat) (x t : Str) (hx : Separator ∉ x) (hne : x ≠ [])
    (ht : t.head? ≠ some Separator) :
    relLoop (fuel + 1) x (x ++ Separator :: t) = ⟨[], [], t⟩ := by
  rw [relLoop, if_pos (Or.inl hne)]
  simp only [takeWhile_no_sep x _ hx, dropWhile_no_sep x _ hx, takeWhile_no_sep_all x hx,
    dropWhile_no_sep_all x hx, ne_eq, not_true_eq_false, if_false, List.drop_succ_cons,
    List.drop_zero, List.drop_nil]
  exact relLoop_nil_left fuel t ht

/-- The loop of `Rel` walks over a base that is an element-wise beginning of the
target and stops with nothing left of the base. -/
theorem relLoop_walk (xs : List Str) (hxs : ∀ x ∈ xs, x ≠ [] ∧ Separator ∉ x) (hne : xs ≠ []) :
    ∀ (fuel : Nat) (rest : Str), rest.head? ≠ some Separator → xs.length ≤ fuel →
      relLoop fuel (stringsJoin [Separator] xs) (stringsJoin [Separator] xs ++ Separator :: rest)
        = ⟨[], [], rest⟩ := by
  induction xs with
  | nil => exact absurd rfl hne
  | cons x xs ih =>
    intro fuel rest hrest hfuel
    have hx := hxs x (by simp)
    cases fuel with
    | zero => simp at hfuel
    | succ n =>
      cases xs with
      | nil => simpa [stringsJoin] using relLoop_last n x rest hx.2 hx.1 hrest
      | cons y ys =>
        have hlen : (y :: ys).length ≤ n := by simpa using hfuel
        have := ih (fun z hz => hxs z (by simp [hz])) (by simp) n rest hrest hlen
        simp only [stringsJoin, List.append_assoc, List.singleton_append, List.cons_append]
          at this ⊢
        rw [relLoop_step n x _ _ hx.2]
        exact this

theorem length_le_stringsJoin (xs : List Str) (hxs : ∀ x ∈ xs, x ≠ []) :
    xs.length ≤ (stringsJoin [Separator] xs).length := by
  induction xs with
  | nil => simp
  | cons x xs ih =>
    have hx : 0 < x.length := List.length_pos.mpr (hxs x (by simp))
    cases xs with
    | nil => simpa [stringsJoin] using hx
    | cons y ys =>
      have := ih (fun z hz => hxs z (by simp [hz]))
      simp only [stringsJoin, List.length_append, List.length_cons, List.length_nil] at this ⊢
      omega

/-- On a clean base other than `/` and `.`, the loop of `Rel` consumes the whole
base when the target continues it after a separator. -/
theorem relLoop_clean (p x : Str) (hp : Clean p = p) (h1 : p ≠ [Separator]) (h2 : p ≠ ['.'])
    (hx : x.head? ≠ some Separator) (fuel : Nat) (hfuel : p.length ≤ fuel) :
    relLoop fuel p (p ++ Separator :: x) = ⟨[], [], x⟩ := by
  obtain ⟨s, hv, hrender, _⟩ := clean_normal_form p hp
  have hel : ∀ e ∈ s.elems, e ≠ [] ∧ Separator ∉ e := fun e he =>
    ⟨(hv.isElem e he).1, (hv.isElem e he).2.1⟩
  cases hr : IsAbs p
  · rw [hr] at hv hrender
    rw [render_relative s hv] at hrender
    have hne : s.elems ≠ [] := by
      intro h; rw [if_pos h] at hrender; exact h2 hrender
    rw [if_neg hne] at hrender
    rw [hrender] at hfuel ⊢
    exact relLoop_walk _ hel hne _ _ hx
      (Nat.le_trans (length_le_stringsJoin _ (fun e he => (hel e he).1)) hfuel)
  · rw [hr] at hv hrender
    rw [render_rooted] at hrender
    have hne : s.elems ≠ [] := by
      intro h; rw [h] at hrender; exact h1 (by simpa [stringsJoin] using hrender)
    rw [hrender] at hfuel ⊢
    cases fuel with
    | zero => simp at hfuel
    | succ f =>
      have hf : (stringsJoin [Separator] s.elems).length ≤ f := by simpa using hfuel
      have := relLoop_step f []
        (stringsJoin [Separator] s.elems) (stringsJoin [Separator] s.elems ++ Separator :: x)
        (by simp)
      simp only [List.nil_append] at this
      rw [List.cons_append, this]
      exact relLoop_walk _ hel hne _ _ hx
        (Nat.le_trans (length_le_stringsJoin _ (fun e he => (hel e he).1)) hf)

theorem components_stringsJoin (xs : List Str) (hxs : ∀ x ∈ xs, Separator ∉ x) (hne : xs ≠ []) :
    components (stringsJoin [Separator] xs) = xs := by
  induction xs with
  | nil => exact absurd rfl hne
  | cons x xs ih =>
    cases xs with
    | nil => simpa [stringsJoin] using components_of_no_sep x (hxs x (by simp))
    | cons y ys =>
      have := ih (fun z hz => hxs z (by simp [hz])) (by simp)
      simp only [stringsJoin, List.append_assoc, List.singleton_append]
      rw [components_append_sep, components_of_no_sep x (hxs x (by simp)), this]; simp

theorem IsAbs_stringsJoin_names (ns : List Str) (hns : ∀ n ∈ ns, IsName n) :
    IsAbs (stringsJoin [Separator] ns) = false := by
  cases ns with
  | nil => simp [stringsJoin, IsAbs]
  | cons x xs =>
    have hx := hns x (by simp)
    simp only [IsAbs, decide_eq_false_iff_not, head_stringsJoin [Separator] x xs hx.1]
    cases x with
    | nil => exact absurd rfl hx.1
    | cons c t =>
      intro hc
      simp only [List.head?_cons, Option.some.injEq] at hc
      exact hx.2.1 (by simp [hc])

theorem head_stringsJoin_names (ns : List Str) (hns : ∀ n ∈ ns, IsName n) :
    (stringsJoin [Separator] ns).head? ≠ some Separator := by
  simpa [IsAbs] using IsAbs_stringsJoin_names ns hns

theorem stringsJoin_names_ne_dot (ns : List Str) (hns : ∀ n ∈ ns, IsName n) (hne : ns ≠ []) :
    stringsJoin [Separator] ns ≠ ['.'] := by
  intro h
  have := elements_stringsJoin ns (fun n hn => isName_isElem n (hns n hn))
  rw [h] at this
  have h0 : elements ['.'] = [] := by decide
  exact hne (by rw [← this, h0])

/-- Ordinary segments joined by separators are a clean path. -/
theorem Clean_stringsJoin_names (ns : List Str) (hns : ∀ n ∈ ns, IsName n) (hne : ns ≠ []) :
    Clean (stringsJoin [Separator] ns) = stringsJoin [Separator] ns := by
  have hv : (⟨0, ns⟩ : Norm).Valid false := ⟨fun h => Bool.noConfusion h, hns⟩
  have hel : (⟨0, ns⟩ : Norm).elems = ns := by simp [Norm.elems]
  have := Clean_render false ⟨0, ns⟩ hv
  rw [render_relative _ hv, hel, if_neg hne] at this
  exact this

/-- The function `Rel` of a clean base other than `/` and `.` and a clean target that continues
the base by ordinary segments is the continuation. -/
theorem Rel_clean_append (p : Str) (ns : List Str) (hp : Clean p = p) (h1 : p ≠ [Separator])
    (h2 : p ≠ ['.']) (hns : ∀ n ∈ ns, IsName n) (hnsne : ns ≠ [])
    (hx : Clean (p ++ Separator :: stringsJoin [Separator] ns)
      = p ++ Separator :: stringsJoin [Separator] ns) :
    Rel p (p ++ Separator :: stringsJoin [Separator] ns) = .ok (stringsJoin [Separator] ns) := by
  have hpne : p ≠ [] := by rw [← hp]; exact Clean_ne_nil p
  have hne : p ++ Separator :: stringsJoin [Separator] ns ≠ p := by
    intro h
    have := congrArg List.length h
    simp at this
  have hhead : (p ++ Separator :: stringsJoin [Separator] ns).head? = p.head? := by
    cases p with
    | nil => exact absurd rfl hpne
    | cons c t => simp
  have hloop := relLoop_clean p (stringsJoin [Separator] ns) hp h1 h2
    (head_stringsJoin_names ns hns)
    (p.length + (p ++ Separator :: stringsJoin [Separator] ns).length) (by omega)
  simp only [Rel, hp, hx, if_neg hne, if_neg h2, hhead, ne_eq, not_true_eq_false, if_false,
    hloop, Clean_stringsJoin_names ns hns hnsne]
  simp

/-- The function `Rel` of the base `/` and a clean target below it. -/
theorem Rel_root (ns : List Str) (hns : ∀ n ∈ ns, IsName n) (hnsne : ns ≠ [])
    (hx : Clean (Separator :: stringsJoin [Separator] ns)
      = Separator :: stringsJoin [Separator] ns) :
    Rel [Separator] (Separator :: stringsJoin [Separator] ns)
      = .ok (stringsJoin [Separator] ns) := by
  have hc : Clean [Separator] = [Separator] := by decide
  have hne : stringsJoin [Separator] ns ≠ [] := fun h =>
    hnsne ((stringsJoin_eq_nil _ _ (fun x hx => (hns x hx).1)).mp h)
  have h1 : Separator :: stringsJoin [Separator] ns ≠ [Separator] := by simpa using hne
  have h2 : ([Separator] : Str) ≠ ['.'] := by decide
  have hloop : ∀ f, relLoop (f + 1) [Separator] (Separator :: stringsJoin [Separator] ns)
      = ⟨[], [], stringsJoin [Separator] ns⟩ := by
    intro f
    have := relLoop_step f [] [] (stringsJoin [Separator] ns) (by simp)
    simp only [List.nil_append] at this
    rw [this]
    exact relLoop_nil_left f _ (head_stringsJoin_names ns hns)
  have hfuel : ([Separator] : Str).length + (Separator :: stringsJoin [Separator] ns).length
      = ((stringsJoin [Separator] ns).length + 1) + 1 := by
    simp only [List.length_cons, List.length_nil]; omega
  simp only [Rel, hc, hx, if_neg h1, if_neg h2, List.head?_cons, ne_eq, not_true_eq_false,
    if_false, hfuel, hloop, Clean_stringsJoin_names ns hns hnsne]
  simp

/-- The function `Rel` of an empty or `.` base and a clean relative target other than `.`. -/
theorem Rel_dot (b t : Str) (hb : Clean b = ['.']) (ht : Clean t = t)
    (hrel : IsAbs t = false) (hdot : t ≠ ['.']) :
    Rel b t = .ok t := by
  have hhead : ¬ (t.head? = some Separator) := by simpa [IsAbs] using hrel
  simp only [Rel, hb, ht, if_neg hdot, if_true, List.head?_nil, reduceCtorEq, hhead, ne_eq,
    not_true_eq_false, if_false, List.length_nil, relLoop_nil_left _ t hhead]

/-- The result of `Rel` only depends on the cleaned arguments (the error text
apart). -/
theorem Rel_ok_of_clean (b t r : Str) (h : Rel (Clean b) (Clean t) = .ok r) :
    Rel b t = .ok r := by
  simp only [Rel, Clean_idem] at h ⊢
  by_cases h1 : Clean t = Clean b
  · rw [if_pos h1] at h ⊢; exact h
  · rw [if_neg h1] at h ⊢
    generalize (if Clean b = ['.'] then [] else Clean b) = base at h ⊢
    by_cases h2 : (base.head? = some Separator) ≠ ((Clean t).head? = some Separator)
    · rw [if_pos h2] at h; cases h
    · rw [if_neg h2] at h ⊢
      by_cases h3 : (relLoop (base.length + (Clean t).length) base (Clean t)).baseElem
          = ['.', '.']
      · rw [if_pos h3] at h; cases h
      · rw [if_neg h3] at h ⊢; exact h

/-- Cleaning only depends on the cleaned form of what precedes a separator. -/
theorem Clean_append_left (p q : Str) (hp : p ≠ []) :
    Clean (p ++ Separator :: q) = Clean (Clean p ++ Separator :: q) := by
  have hv := normalize_isValid (IsAbs p) (elements p) (elements_isElem p)
  have hel : elements (Clean p) = (normalize (IsAbs p) (elements p)).elems := by
    rw [Clean_eq_render p]; exact elements_render _ _ hv
  have habs : IsAbs (Clean p) = IsAbs p := by
    rw [Clean_eq_render p]; exact IsAbs_render _ _ hv
  have hn := normalize_elems (IsAbs p) _ hv
  rw [Clean_eq_render (p ++ Separator :: q), Clean_eq_render (Clean p ++ Separator :: q),
    IsAbs_append p _ hp, IsAbs_append (Clean p) _ (Clean_ne_nil p), habs,
    elements_append_sep, elements_append_sep, hel]
  congr 1
  rw [normalize, normalize, List.foldl_append, List.foldl_append]
  rw [normalize] at hn
  rw [hn]
  rfl

/-- The function `Rel` of a clean base and the cleaned base-plus-`q`, for `q` without `..`
element: the result is `.` or the elements of `q` joined by separators. -/
theorem Rel_clean_base (c q : Str) (hc : Clean c = c) (hq : (['.', '.'] : Str) ∉ elements q) :
    Rel c (Clean (c ++ Separator :: q)) =
      .ok (if elements q = [] then ['.'] else stringsJoin [Separator] (elements q)) := by
  have hns := elements_names q hq
  have hcl : Clean (Clean (c ++ Separator :: q)) = Clean (c ++ Separator :: q) := Clean_idem _
  have happ := Clean_append c hc q hq
  by_cases he : elements q = []
  · rw [if_pos he] at happ ⊢
    rw [happ]
    simp [Rel, hc]
  · rw [if_neg he] at happ ⊢
    by_cases h1 : c = [Separator]
    · rw [if_pos h1] at happ
      rw [happ] at hcl ⊢
      rw [h1]
      exact Rel_root _ hns he hcl
    · rw [if_neg h1] at happ
      by_cases h2 : c = ['.']
      · rw [if_pos h2] at happ
        rw [happ] at hcl ⊢
        exact Rel_dot c _ (by rw [hc, h2]) hcl (IsAbs_stringsJoin_names _ hns)
          (stringsJoin_names_ne_dot _ hns he)
      · rw [if_neg h2] at happ
        rw [happ] at hcl ⊢
        exact Rel_clean_append c _ hc h1 h2 hns he hcl

/-- The function `Rel` of a result of `Join` and its extension by one ordinary segment is the
segment. -/
theorem Rel_Join_name (out s : Str) (hout : out = [] ∨ Clean out = out) (hs : IsName s) :
    Rel out (Join [out, s]) = .ok s := by
  by_cases h0 : out = []
  · subst h0
    rw [Join_nil_cons, Join_cons_ne s [] hs.1]
    simp only [stringsJoin, isName_clean s hs]
    have hrel : IsAbs s = false := by
      have := IsAbs_stringsJoin_names [s] (by intro n hn; simp at hn; subst hn; exact hs)
      simpa [stringsJoin] using this
    exact Rel_dot [] s (by decide) (isName_clean s hs) hrel hs.2.2.1
  · have hc := hout.resolve_left h0
    have hel : elements s = [s] := elements_of_isElem s (isName_isElem s hs)
    have hq : (['.', '.'] : Str) ∉ elements s := by
      rw [hel]; simp only [List.mem_singleton]; exact fun h => hs.2.2.2 h.symm
    have := Rel_clean_base out s hc hq
    rw [hel] at this
    rw [Join_cons_ne out _ h0]
    simpa [stringsJoin] using this

/-! ## Claims on the derived directories -/

/-- Joining a clean absolute root other than `/` with a clean relative path
without `..` (other than `.`) is plain concatenation with a separator. -/
theorem Join_root_dir (root dir : Str) (rest : List Str)
    (hroot : Clean root = root) (habs : IsAbs root = true) (hne : root ≠ [Separator])
    (hdir : Clean dir = dir) (hrel : IsAbs dir = false)
    (hnoup : (['.', '.'] : Str) ∉ components dir) (hdot : dir ≠ ['.'])
    (hrest : ∀ n ∈ rest, IsName n) :
    Join (root :: dir :: rest) = stringsJoin [Separator] (root :: dir :: rest) := by
  obtain ⟨ns, hns, _, hd⟩ := clean_relative_names dir hdir hrel hnoup
  have hnsne : ns ≠ [] := by
    intro h; rw [h] at hd; exact hdot (by simpa using hd)
  rw [if_neg hnsne] at hd
  have hrootne : root ≠ [] := by intro h; rw [h] at habs; simp [IsAbs] at habs
  have hrootdot : root ≠ ['.'] := by
    intro h; rw [h] at habs; simp [IsAbs, dot_ne_sep] at habs
  have hall : ∀ n ∈ ns ++ rest, IsName n := by
    intro n hn
    rcases List.mem_append.mp hn with h | h
    · exact hns n h
    · exact hrest n h
  have hjoin : stringsJoin [Separator] (dir :: rest) = stringsJoin [Separator] (ns ++ rest) := by
    by_cases hr : rest = []
    · subst hr; simp [stringsJoin, hd]
    · rw [stringsJoin_append _ _ _ hnsne hr, ← hd]
      cases rest with
      | nil => exact absurd rfl hr
      | cons r rs => simp [stringsJoin]
  have hcat : stringsJoin [Separator] (root :: dir :: rest)
      = root ++ Separator :: stringsJoin [Separator] (ns ++ rest) := by
    rw [← hjoin]; simp [stringsJoin]
  rw [Join_cons_ne root _ hrootne, hcat,
    Clean_append_names root hroot (ns ++ rest) hall (by simp [hnsne]),
    if_neg hne, if_neg hrootdot]

/-- C1: for a clean absolute intermediates root other than `/`, a non-empty clean
relative module directory without `..` component and different from `.`, and a
module name and module sub-directory that are single ordinary segments,
`ModuleOutDir` is exactly
`intermediatesRoot + "/" + moduleDir + "/" + moduleName + "/" + moduleSubDir`. -/
theorem ModuleOutDir_exact (ctx : AndroidModuleContext)
    (hroot : Clean ctx.AConfig.IntermediatesDir = ctx.AConfig.IntermediatesDir)
    (habs : IsAbs ctx.AConfig.IntermediatesDir = true)
    (hne : ctx.AConfig.IntermediatesDir ≠ "/".toList)
    (_hdirne : ctx.ModuleDir ≠ [])
    (hdir : Clean ctx.ModuleDir = ctx.ModuleDir)
    (hrel : IsAbs ctx.ModuleDir = false)
    (hnoup : "..".toList ∉ components ctx.ModuleDir)
    (hdot : ctx.ModuleDir ≠ ".".toList)
    (hname : IsName ctx.ModuleName) (hsub : IsName ctx.ModuleSubDir) :
    ModuleOutDir ctx =
      ctx.AConfig.IntermediatesDir ++ "/".toList ++ ctx.ModuleDir ++ "/".toList
        ++ ctx.ModuleName ++ "/".toList ++ ctx.ModuleSubDir := by
  have := Join_root_dir ctx.AConfig.IntermediatesDir ctx.ModuleDir
    [ctx.ModuleName, ctx.ModuleSubDir] hroot habs hne hdir hrel hnoup hdot
    (by
      intro n hn
      simp only [List.mem_cons, List.mem_singleton, List.not_mem_nil, or_false] at hn
      rcases hn with h | h
      · rw [h]; exact hname
      · rw [h]; exact hsub)
  rw [ModuleOutDir, this]
  simp [stringsJoin, Separator]

/-- Witness for C1: a module of the Android tree. -/
theorem ModuleOutDir_exact_witness :
    ModuleOutDir (mkCtx "/src" "/out/soong/.intermediates" "art/runtime" "libart" "android_arm64")
      = "/out/soong/.intermediates/art/runtime/libart/android_arm64".toList :=
  ModuleOutDir_exact (mkCtx "/src" "/out/soong/.intermediates" "art/runtime" "libart" "android_arm64")
    (by decide) (by decide) (by decide) (by decide) (by decide) (by decide) (by decide)
    (by decide) (by decide) (by decide)

/-- C2: with source root `/src`, the absolute path `/other/x`, which is not inside
the source root, does not make `SrcDirRelPath` panic: `filepath.Rel` succeeds and
the function returns the relative path `../other/x`. -/
theorem SrcDirRelPath_outside_returns :
    SrcDirRelPath (mkCtx "/src" "/out" "a" "m" "v") "/other/x".toList
      = .ok "../other/x".toList := by
  rfl

theorem up_not_mem_elements (p : Str) (h : "..".toList ∉ components p) :
    (['.', '.'] : Str) ∉ elements p :=
  fun hm => h (mem_components_of_mem_elements p _ hm)

/-- C3: for a clean absolute source root, a clean relative module directory
without `..` component and a single ordinary segment `foo`,
`SrcDirRelPath(ctx, Join(sourceRoot, moduleDir, foo))` returns
`Join(moduleDir, foo)` and does not panic. -/
theorem SrcDirRelPath_of_module_file (ctx : AndroidModuleContext) (foo : Str)
    (hsrc : Clean ctx.AConfig.SrcDir = ctx.AConfig.SrcDir)
    (_habs : IsAbs ctx.AConfig.SrcDir = true)
    (hdir : Clean ctx.ModuleDir = ctx.ModuleDir)
    (hrel : IsAbs ctx.ModuleDir = false)
    (hnoup : "..".toList ∉ components ctx.ModuleDir)
    (hfoo : IsName foo) :
    SrcDirRelPath ctx (Join [ctx.AConfig.SrcDir, ctx.ModuleDir, foo])
      = .ok (Join [ctx.ModuleDir, foo]) := by
  have hsrcne : ctx.AConfig.SrcDir ≠ [] := by rw [← hsrc]; exact Clean_ne_nil _
  have hdirne : ctx.ModuleDir ≠ [] := by rw [← hdir]; exact Clean_ne_nil _
  obtain ⟨ns, hns, hel, hd⟩ := clean_relative_names ctx.ModuleDir hdir hrel hnoup
  have helfoo : elements foo = [foo] := elements_of_isElem foo (isName_isElem foo hfoo)
  have hq : (['.', '.'] : Str) ∉ elements (ctx.ModuleDir ++ Separator :: foo) := by
    rw [elements_append_sep, helfoo, List.mem_append, List.mem_singleton]
    rintro (h | h)
    · exact up_not_mem_elements _ hnoup h
    · exact hfoo.2.2.2 h.symm
  have hqel : elements (ctx.ModuleDir ++ Separator :: foo) = ns ++ [foo] := by
    rw [elements_append_sep, helfoo, hel]
  -- the relative path computed by `Rel`
  have hrelres := Rel_clean_base ctx.AConfig.SrcDir (ctx.ModuleDir ++ Separator :: foo) hsrc hq
  rw [hqel, if_neg (by simp)] at hrelres
  -- the expected path
  have hfooq : (['.', '.'] : Str) ∉ elements foo := by
    rw [helfoo, List.mem_singleton]; exact fun h => hfoo.2.2.2 h.symm
  have hjoin : Join [ctx.ModuleDir, foo] = stringsJoin [Separator] (ns ++ [foo]) := by
    rw [Join_cons_ne _ _ hdirne]
    have happ := Clean_append ctx.ModuleDir hdir foo hfooq
    rw [helfoo, if_neg (by simp)] at happ
    have hnoabs : ctx.ModuleDir ≠ [Separator] := by
      intro h; rw [h] at hrel; simp [IsAbs] at hrel
    rw [if_neg hnoabs] at happ
    have hst : stringsJoin [Separator] [ctx.ModuleDir, foo] = ctx.ModuleDir ++ Separator :: foo := by
      simp [stringsJoin]
    rw [hst, happ]
    by_cases hnil : ns = []
    · rw [hnil] at hd ⊢
      rw [if_pos rfl] at hd
      rw [if_pos hd]; rfl
    · rw [if_neg hnil] at hd
      have hdot : ctx.ModuleDir ≠ ['.'] := by
        rw [hd]; exact stringsJoin_names_ne_dot ns hns hnil
      rw [if_neg hdot, stringsJoin_concat _ _ _ hnil, ← hd]
      simp [stringsJoin]
  have hT : Join [ctx.AConfig.SrcDir, ctx.ModuleDir, foo]
      = Clean (ctx.AConfig.SrcDir ++ Separator :: (ctx.ModuleDir ++ Separator :: foo)) := by
    rw [Join_cons_ne _ _ hsrcne]; simp [stringsJoin]
  rw [SrcDirRelPath, hT, hjoin]
  simp only [hrelres]

/-- Witness for C3: a file of the module `art/runtime` under `/src`. -/
theorem SrcDirRelPath_of_module_file_witness :
    SrcDirRelPath (mkCtx "/src" "/out" "art/runtime" "libart" "arm") "/src/art/runtime/foo".toList
      = .ok "art/runtime/foo".toList :=
  SrcDirRelPath_of_module_file (mkCtx "/src" "/out" "art/runtime" "libart" "arm") "foo".toList
    (by decide) (by decide) (by decide) (by decide) (by decide) (by decide)

/-! ## The checks of declared source directories -/

theorem checkModuleSrcDir_eq (stat : Str → Option OsError) (ctx : AndroidModuleContext)
    (prop : Str) (sink : List PropertyError) (d : Str) :
    checkModuleSrcDir stat ctx prop sink d
      = sink ++ (moduleSrcDirReport stat ctx prop d).toList := by
  simp only [checkModuleSrcDir, moduleSrcDirReport]
  cases h : stat (Join [ModuleSrcDir ctx, d]) with
  | none => simp
  | some err => cases h2 : err.IsNotExist <;> simp [h2]

theorem checkSrcDir_eq (stat : Str → Option OsError) (ctx : AndroidModuleContext)
    (prop : Str) (sink : List PropertyError) (d : Str) :
    checkSrcDir stat ctx prop sink d
      = sink ++ (srcDirReport stat ctx.AConfig.SrcDir prop d).toList := by
  simp only [checkSrcDir, srcDirReport]
  cases h : stat (Join [ctx.AConfig.SrcDir, d]) with
  | none => simp
  | some err => cases h2 : err.IsNotExist <;> simp [h2]

theorem foldl_report {α β : Type} (g : α → Option β)
    (step : List β → α → List β) (hstep : ∀ sink d, step sink d = sink ++ (g d).toList) :
    ∀ (dirs : List α) (sink : List β), dirs.foldl step sink = sink ++ dirs.filterMap g := by
  intro dirs
  induction dirs with
  | nil => intro sink; simp
  | cons d ds ih =>
    intro sink
    rw [List.foldl_cons, ih, hstep]
    cases h : g d <;> simp [List.filterMap_cons, h]

/-- The function `CheckModuleSrcDirsExist` appends to the sink the reports of the entries, in
list order. -/
theorem CheckModuleSrcDirsExist_eq (stat : Str → Option OsError) (ctx : AndroidModuleContext)
    (dirs : List Str) (prop : Str) (sink : List PropertyError) :
    CheckModuleSrcDirsExist stat ctx dirs prop sink
      = sink ++ dirs.filterMap (moduleSrcDirReport stat ctx prop) :=
  foldl_report _ _ (checkModuleSrcDir_eq stat ctx prop) dirs sink

/-- The function `CheckSrcDirsExist` appends to the sink the reports of the entries, in list
order. -/
theorem CheckSrcDirsExist_eq (stat : Str → Option OsError) (ctx : AndroidModuleContext)
    (dirs : List Str) (prop : Str) (sink : List PropertyError) :
    CheckSrcDirsExist stat ctx dirs prop sink
      = sink ++ dirs.filterMap (srcDirReport stat ctx.AConfig.SrcDir prop) :=
  foldl_report _ _ (checkSrcDir_eq stat ctx prop) dirs sink

theorem length_filterMap_eq_countP {α β : Type} (g : α → Option β) (l : List α) :
    (l.filterMap g).length = l.countP (fun a => (g a).isSome) := by
  induction l with
  | nil => rfl
  | cons a l ih =>
    cases h : g a <;> simp [List.filterMap_cons, List.countP_cons, h, ih]

theorem moduleSrcDirReport_isSome (stat : Str → Option OsError) (ctx : AndroidModuleContext)
    (prop : Str) (d : Str) :
    (moduleSrcDirReport stat ctx prop d).isSome = (stat (Join [ModuleSrcDir ctx, d])).isSome := by
  unfold moduleSrcDirReport
  cases stat (Join [ModuleSrcDir ctx, d]) <;> simp

/-- C4: the errors reported by `CheckModuleSrcDirsExist` are, in list order, one
report for each entry whose probe of `Join(ModuleSrcDir(ctx), d)` fails and none
for an entry whose probe succeeds; the check does not stop at the first failure,
so the number of reports is the number of failing entries: one for
`[a, missing, b]` when only `missing` fails, two for two failing entries.
Reports already in the sink are kept. -/
theorem CheckModuleSrcDirsExist_reports_each_failure (stat : Str → Option OsError)
    (ctx : AndroidModuleContext) (dirs : List Str) (prop : Str) :
    CheckModuleSrcDirsExist stat ctx dirs prop []
      = dirs.filterMap (moduleSrcDirReport stat ctx prop) ∧
    (∀ d, (moduleSrcDirReport stat ctx prop d).isSome
      = (stat (Join [ModuleSrcDir ctx, d])).isSome) ∧
    (CheckModuleSrcDirsExist stat ctx dirs prop []).length
      = dirs.countP (fun d => (stat (Join [ModuleSrcDir ctx, d])).isSome) ∧
    (∀ sink, CheckModuleSrcDirsExist stat ctx dirs prop sink
      = sink ++ CheckModuleSrcDirsExist stat ctx dirs prop []) ∧
    (∀ a m b, stat (Join [ModuleSrcDir ctx, a]) = none →
      stat (Join [ModuleSrcDir ctx, m]) ≠ none → stat (Join [ModuleSrcDir ctx, b]) = none →
      (CheckModuleSrcDirsExist stat ctx [a, m, b] prop []).length = 1) ∧
    (∀ m n, stat (Join [ModuleSrcDir ctx, m]) ≠ none →
      stat (Join [ModuleSrcDir ctx, n]) ≠ none →
      (CheckModuleSrcDirsExist stat ctx [m, n] prop []).length = 2) := by
  have hlen : ∀ ds : List Str, (CheckModuleSrcDirsExist stat ctx ds prop []).length
      = ds.countP (fun d => (stat (Join [ModuleSrcDir ctx, d])).isSome) := by
    intro ds
    rw [CheckModuleSrcDirsExist_eq, List.nil_append, length_filterMap_eq_countP]
    congr 1
    funext d
    exact moduleSrcDirReport_isSome stat ctx prop d
  refine ⟨by rw [CheckModuleSrcDirsExist_eq, List.nil_append],
    moduleSrcDirReport_isSome stat ctx prop, hlen dirs, ?_, ?_, ?_⟩
  · intro sink
    rw [CheckModuleSrcDirsExist_eq, CheckModuleSrcDirsExist_eq, List.nil_append]
  · intro a m b ha hm hb
    rw [hlen]
    obtain ⟨e, he⟩ := Option.ne_none_iff_exists'.mp hm
    simp [List.countP_cons, ha, hb, he]
  · intro m n hm hn
    rw [hlen]
    obtain ⟨e, he⟩ := Option.ne_none_iff_exists'.mp hm
    obtain ⟨e', he'⟩ := Option.ne_none_iff_exists'.mp hn
    simp [List.countP_cons, he, he']

/-- Witness for C4: on the sample filesystem `[a, missing, b]` gives the one report
for `missing`, and two missing entries give two reports. -/
theorem CheckModuleSrcDirsExist_reports_each_failure_witness :
    CheckModuleSrcDirsExist sampleStat (mkCtx "/src" "/out" "m" "lib" "arm")
        ["a".toList, "missing".toList, "b".toList] "srcs".toList []
      = [⟨"srcs".toList, "module source directory %q does not exist".toList,
          ["missing".toList]⟩] ∧
    (CheckModuleSrcDirsExist sampleStat (mkCtx "/src" "/out" "m" "lib" "arm")
        ["a".toList, "missing".toList, "b".toList] "srcs".toList []).length = 1 ∧
    (CheckModuleSrcDirsExist sampleStat (mkCtx "/src" "/out" "m" "lib" "arm")
        ["missing".toList, "gone".toList] "srcs".toList []).length = 2 :=
  have h := CheckModuleSrcDirsExist_reports_each_failure sampleStat
    (mkCtx "/src" "/out" "m" "lib" "arm") ["a".toList, "missing".toList, "b".toList]
    "srcs".toList
  ⟨h.1.trans (by decide),
   h.2.2.2.2.1 "a".toList "missing".toList "b".toList (by decide) (by decide) (by decide),
   h.2.2.2.2.2 "missing".toList "gone".toList (by decide) (by decide)⟩

theorem Sprintf_module (quote : Str → Str) (d : Str) :
    Sprintf quote "module source directory %q does not exist".toList [d]
      = "module source directory ".toList ++ quote d ++ " does not exist".toList := by
  simp [Sprintf]

theorem Sprintf_toplevel (quote : Str → Str) (d : Str) :
    Sprintf quote "top-level source directory %q does not exist".toList [d]
      = "top-level source directory ".toList ++ quote d ++ " does not exist".toList := by
  simp [Sprintf]

theorem Sprintf_s (quote : Str → Str) (a : Str) : Sprintf quote "%s".toList [a] = a := by
  simp [Sprintf]

theorem moduleSrcDirReport_some (quote : Str → Str) (stat : Str → Option OsError)
    (ctx : AndroidModuleContext) (prop d : Str) (r : PropertyError)
    (h : moduleSrcDirReport stat ctx prop d = some r) :
    r.property = prop ∧ ∃ err, stat (Join [ModuleSrcDir ctx, d]) = some err ∧
      r.message quote = if err.IsNotExist then
          "module source directory ".toList ++ quote d ++ " does not exist".toList
        else err.Error := by
  simp only [moduleSrcDirReport] at h
  cases hs : stat (Join [ModuleSrcDir ctx, d]) with
  | none => rw [hs] at h; cases h
  | some err =>
    rw [hs] at h
    simp only [Option.some.injEq] at h
    subst h
    refine ⟨?_, err, rfl, ?_⟩
    · cases err.IsNotExist <;> rfl
    · cases he : err.IsNotExist
      · simp only [he, Bool.false_eq_true, if_false]; exact Sprintf_s quote err.Error
      · simp only [he, if_true]; exact Sprintf_module quote d

theorem srcDirReport_some (quote : Str → Str) (stat : Str → Option OsError)
    (srcDir prop d : Str) (r : PropertyError)
    (h : srcDirReport stat srcDir prop d = some r) :
    r.property = prop ∧ ∃ err, stat (Join [srcDir, d]) = some err ∧
      r.message quote = if err.IsNotExist then
          "top-level source directory ".toList ++ quote d ++ " does not exist".toList
        else err.Error := by
  simp only [srcDirReport] at h
  cases hs : stat (Join [srcDir, d]) with
  | none => rw [hs] at h; cases h
  | some err =>
    rw [hs] at h
    simp only [Option.some.injEq] at h
    subst h
    refine ⟨?_, err, rfl, ?_⟩
    · cases err.IsNotExist <;> rfl
    · cases he : err.IsNotExist
      · simp only [he, Bool.false_eq_true, if_false]; exact Sprintf_s quote err.Error
      · simp only [he, if_true]; exact Sprintf_toplevel quote d

/-- C5: every error reported by `CheckModuleSrcDirsExist` and by
`CheckSrcDirsExist` is attributed to the given property; it is the report of an
entry `d` of `dirs` whose probe failed, and its message is
`module source directory %q does not exist` (resp. `top-level source directory
%q does not exist`) applied to the entry `d` as declared when the probe reports
does-not-exist, and the error text of the probe otherwise; and every entry whose
probe fails is reported so. -/
theorem check_reports_property_and_message (quote : Str → Str)
    (stat : Str → Option OsError) (ctx : AndroidModuleContext) (dirs : List Str)
    (prop : Str) :
    (∀ r ∈ CheckModuleSrcDirsExist stat ctx dirs prop [], r.property = prop ∧
      ∃ d ∈ dirs, ∃ err, stat (Join [ModuleSrcDir ctx, d]) = some err ∧
        r.message quote = if err.IsNotExist then
            "module source directory ".toList ++ quote d ++ " does not exist".toList
          else err.Error) ∧
    (∀ r ∈ CheckSrcDirsExist stat ctx dirs prop [], r.property = prop ∧
      ∃ d ∈ dirs, ∃ err, stat (Join [ctx.AConfig.SrcDir, d]) = some err ∧
        r.message quote = if err.IsNotExist then
            "top-level source directory ".toList ++ quote d ++ " does not exist".toList
          else err.Error) ∧
    (∀ d ∈ dirs, ∀ err, stat (Join [ModuleSrcDir ctx, d]) = some err →
      ∃ r ∈ CheckModuleSrcDirsExist stat ctx dirs prop [], r.property = prop ∧
        r.format = (if err.IsNotExist then
          "module source directory %q does not exist".toList else "%s".toList) ∧
        r.args = [if err.IsNotExist then d else err.Error] ∧
        r.message quote = if err.IsNotExist then
            "module source directory ".toList ++ quote d ++ " does not exist".toList
          else err.Error) ∧
    (∀ d ∈ dirs, ∀ err, stat (Join [ctx.AConfig.SrcDir, d]) = some err →
      ∃ r ∈ CheckSrcDirsExist stat ctx dirs prop [], r.property = prop ∧
        r.format = (if err.IsNotExist then
          "top-level source directory %q does not exist".toList else "%s".toList) ∧
        r.args = [if err.IsNotExist then d else err.Error] ∧
        r.message quote = if err.IsNotExist then
            "top-level source directory ".toList ++ quote d ++ " does not exist".toList
          else err.Error) := by
  refine ⟨?_, ?_, ?_, ?_⟩
  · intro r hr
    rw [CheckModuleSrcDirsExist_eq, List.nil_append, List.mem_filterMap] at hr
    obtain ⟨d, hd, hrep⟩ := hr
    obtain ⟨h1, err, h2, h3⟩ := moduleSrcDirReport_some quote stat ctx prop d r hrep
    exact ⟨h1, d, hd, err, h2, h3⟩
  · intro r hr
    rw [CheckSrcDirsExist_eq, List.nil_append, List.mem_filterMap] at hr
    obtain ⟨d, hd, hrep⟩ := hr
    obtain ⟨h1, err, h2, h3⟩ := srcDirReport_some quote stat _ prop d r hrep
    exact ⟨h1, d, hd, err, h2, h3⟩
  · intro d hd err hs
    have hrep : moduleSrcDirReport stat ctx prop d = some
        (if err.IsNotExist then
          ⟨prop, "module source directory %q does not exist".toList, [d]⟩
        else ⟨prop, "%s".toList, [err.Error]⟩) := by
      simp only [moduleSrcDirReport, hs]
    refine ⟨if err.IsNotExist then
          ⟨prop, "module source directory %q does not exist".toList, [d]⟩
        else ⟨prop, "%s".toList, [err.Error]⟩, ?_, ?_⟩
    · rw [CheckModuleSrcDirsExist_eq, List.nil_append, List.mem_filterMap]
      exact ⟨d, hd, hrep⟩
    · cases he : err.IsNotExist
      · simp only [he, Bool.false_eq_true, if_false]
        exact ⟨trivial, trivial, trivial, Sprintf_s quote err.Error⟩
      · simp only [he, if_true]
        exact ⟨trivial, trivial, trivial, Sprintf_module quote d⟩
  · intro d hd err hs
    have hrep : srcDirReport stat ctx.AConfig.SrcDir prop d = some
        (if err.IsNotExist then
          ⟨prop, "top-level source directory %q does not exist".toList, [d]⟩
        else ⟨prop, "%s".toList, [err.Error]⟩) := by
      simp only [srcDirReport, hs]
    refine ⟨if err.IsNotExist then
          ⟨prop, "top-level source directory %q does not exist".toList, [d]⟩
        else ⟨prop, "%s".toList, [err.Error]⟩, ?_, ?_⟩
    · rw [CheckSrcDirsExist_eq, List.nil_append, List.mem_filterMap]
      exact ⟨d, hd, hrep⟩
    · cases he : err.IsNotExist
      · simp only [he, Bool.false_eq_true, if_false]
        exact ⟨trivial, trivial, trivial, Sprintf_s quote err.Error⟩
      · simp only [he, if_true]
        exact ⟨trivial, trivial, trivial, Sprintf_toplevel quote d⟩

/-- Witness for C5: the reports for a missing and for an unreadable directory on the
sample filesystem. -/
theorem check_reports_property_and_message_witness :
    (∃ r ∈ CheckModuleSrcDirsExist sampleStat (mkCtx "/src" "/out" "m" "lib" "arm")
        ["a".toList, "missing".toList, "locked".toList] "srcs".toList [],
      r.property = "srcs".toList ∧
      r.format = "module source directory %q does not exist".toList ∧
      r.args = ["missing".toList] ∧
      r.message sampleQuote = "module source directory ".toList
        ++ sampleQuote "missing".toList ++ " does not exist".toList) ∧
    (∃ r ∈ CheckModuleSrcDirsExist sampleStat (mkCtx "/src" "/out" "m" "lib" "arm")
        ["a".toList, "missing".toList, "locked".toList] "srcs".toList [],
      r.property = "srcs".toList ∧
      r.format = "%s".toList ∧
      r.args = ["stat /src/m/locked: permission denied".toList] ∧
      r.message sampleQuote = "stat /src/m/locked: permission denied".toList) :=
  have h := check_reports_property_and_message sampleQuote sampleStat
    (mkCtx "/src" "/out" "m" "lib" "arm") ["a".toList, "missing".toList, "locked".toList]
    "srcs".toList
  ⟨h.2.2.1 "missing".toList (by decide) ⟨true, "no such file or directory".toList⟩ (by decide),
   h.2.2.1 "locked".toList (by decide)
     ⟨false, "stat /src/m/locked: permission denied".toList⟩ (by decide)⟩

/-- C6: `CheckSrcDirsExist` probes each entry `d` at `Join(sourceRoot, d)` and its
reports do not depend on the module: two contexts with the same source root (and
any module directory, name, sub-directory and intermediates root) report the same
errors on the same filesystem; and when `topleveldir` does not exist under the
source root, `dirs = ["topleveldir"]` gives exactly one error, which names
`topleveldir`. -/
theorem CheckSrcDirsExist_independent_of_module (stat : Str → Option OsError)
    (ctx ctx' : AndroidModuleContext) (hsrc : ctx'.AConfig.SrcDir = ctx.AConfig.SrcDir)
    (dirs : List Str) (prop : Str) (sink : List PropertyError) :
    CheckSrcDirsExist stat ctx dirs prop sink
      = sink ++ dirs.filterMap (srcDirReport stat ctx.AConfig.SrcDir prop) ∧
    CheckSrcDirsExist stat ctx' dirs prop sink = CheckSrcDirsExist stat ctx dirs prop sink ∧
    (∀ err, stat (Join [ctx.AConfig.SrcDir, "topleveldir".toList]) = some err →
      err.IsNotExist = true →
      CheckSrcDirsExist stat ctx ["topleveldir".toList] prop []
        = [⟨prop, "top-level source directory %q does not exist".toList,
            ["topleveldir".toList]⟩]) := by
  refine ⟨CheckSrcDirsExist_eq stat ctx dirs prop sink, ?_, ?_⟩
  · rw [CheckSrcDirsExist_eq, CheckSrcDirsExist_eq, hsrc]
  · intro err hs he
    have hrep : srcDirReport stat ctx.AConfig.SrcDir prop "topleveldir".toList
        = some ⟨prop, "top-level source directory %q does not exist".toList,
            ["topleveldir".toList]⟩ := by
      simp only [srcDirReport, hs, he, if_true]
    rw [CheckSrcDirsExist_eq, List.nil_append, List.filterMap_cons, hrep]
    rfl

/-- Witness for C6: two different modules under the same source root. -/
theorem CheckSrcDirsExist_independent_of_module_witness :
    CheckSrcDirsExist sampleStat (mkCtx "/src" "/elsewhere" "x/y" "other" "x86")
        ["topleveldir".toList] "include_dirs".toList []
      = CheckSrcDirsExist sampleStat (mkCtx "/src" "/out" "m" "lib" "arm")
        ["topleveldir".toList] "include_dirs".toList [] ∧
    CheckSrcDirsExist sampleStat (mkCtx "/src" "/out" "m" "lib" "arm")
        ["topleveldir".toList] "include_dirs".toList []
      = [⟨"include_dirs".toList, "top-level source directory %q does not exist".toList,
          ["topleveldir".toList]⟩] :=
  have h := CheckSrcDirsExist_independent_of_module sampleStat
    (mkCtx "/src" "/out" "m" "lib" "arm") (mkCtx "/src" "/elsewhere" "x/y" "other" "x86")
    (by decide) ["topleveldir".toList] "include_dirs".toList []
  ⟨h.2.1, h.2.2 ⟨true, "no such file or directory".toList⟩ (by decide) (by decide)⟩

theorem suffixes_isName : ∀ s ∈ suffixes, IsName s := by decide

theorem suffixDirs_eq_map (ctx : AndroidModuleContext) :
    suffixDirs ctx = suffixes.map (fun s => Join [ModuleOutDir ctx, s]) := rfl

theorem ModuleOutDir_clean (ctx : AndroidModuleContext) :
    ModuleOutDir ctx = [] ∨ Clean (ModuleOutDir ctx) = ModuleOutDir ctx :=
  Join_clean _

/-- Joining an absolute module output directory other than `/` with an ordinary
segment appends a separator and the segment. -/
theorem Join_out_abs (ctx : AndroidModuleContext) (habs : IsAbs (ModuleOutDir ctx) = true)
    (hne : ModuleOutDir ctx ≠ [Separator]) (s : Str) (hs : IsName s) :
    Join [ModuleOutDir ctx, s] = ModuleOutDir ctx ++ [Separator] ++ s := by
  have h0 : ModuleOutDir ctx ≠ [] := by
    intro h; rw [h] at habs; simp [IsAbs] at habs
  have h1 : ModuleOutDir ctx ≠ ['.'] := by
    intro h; rw [h] at habs; simp [IsAbs, dot_ne_sep] at habs
  rw [Join_pair_name _ (ModuleOutDir_clean ctx) s hs]
  simp [h0, h1, hne]

/-- C7: when `ModuleOutDir(ctx)` is an absolute path other than `/`, each of the
eight suffix functions returns exactly `ModuleOutDir(ctx) + "/" + s` for its
fixed suffix `s`. -/
theorem suffix_dirs_exact (ctx : AndroidModuleContext)
    (habs : IsAbs (ModuleOutDir ctx) = true) (hne : ModuleOutDir ctx ≠ "/".toList) :
    ModuleBinDir ctx = ModuleOutDir ctx ++ "/".toList ++ "bin".toList ∧
    ModuleLibDir ctx = ModuleOutDir ctx ++ "/".toList ++ "lib".toList ∧
    ModuleGenDir ctx = ModuleOutDir ctx ++ "/".toList ++ "gen".toList ∧
    ModuleObjDir ctx = ModuleOutDir ctx ++ "/".toList ++ "obj".toList ∧
    ModuleGoPackageDir ctx = ModuleOutDir ctx ++ "/".toList ++ "pkg".toList ∧
    ModuleIncludeDir ctx = ModuleOutDir ctx ++ "/".toList ++ "include".toList ∧
    ModuleProtoDir ctx = ModuleOutDir ctx ++ "/".toList ++ "proto".toList ∧
    ModuleJSCompiledDir ctx = ModuleOutDir ctx ++ "/".toList ++ "js".toList :=
  ⟨Join_out_abs ctx habs hne _ (by decide), Join_out_abs ctx habs hne _ (by decide),
   Join_out_abs ctx habs hne _ (by decide), Join_out_abs ctx habs hne _ (by decide),
   Join_out_abs ctx habs hne _ (by decide), Join_out_abs ctx habs hne _ (by decide),
   Join_out_abs ctx habs hne _ (by decide), Join_out_abs ctx habs hne _ (by decide)⟩

/-- Witness for C7: a module whose output directory is `/out/a/c/m`. -/
theorem suffix_dirs_exact_witness :
    ModuleBinDir (mkCtx "/src" "/out" "a//b/../c" "m" "") = "/out/a/c/m/bin".toList ∧
    ModuleJSCompiledDir (mkCtx "/src" "/out" "a//b/../c" "m" "") = "/out/a/c/m/js".toList :=
  have h := suffix_dirs_exact (mkCtx "/src" "/out" "a//b/../c" "m" "") (by decide) (by decide)
  ⟨h.1, h.2.2.2.2.2.2.2⟩

/-- C8: for every module context, whatever its strings are, the eight derived
directories are pairwise distinct. -/
theorem suffix_dirs_distinct (ctx : AndroidModuleContext) :
    (suffixDirs ctx).Pairwise (fun p q => p ≠ q) := by
  have hmap : suffixDirs ctx = suffixes.map (fun s =>
      (if ModuleOutDir ctx = [] ∨ ModuleOutDir ctx = ['.'] then []
       else if ModuleOutDir ctx = [Separator] then [Separator]
       else ModuleOutDir ctx ++ [Separator]) ++ s) := by
    rw [suffixDirs_eq_map]
    apply List.map_congr_left
    intro s hs
    exact Join_pair_name _ (ModuleOutDir_clean ctx) s (suffixes_isName s hs)
  rw [hmap]
  have hnodup : suffixes.Nodup := by decide
  exact List.Nodup.map (fun a b h => List.append_cancel_left h) hnodup

theorem Rel_out_suffix (ctx : AndroidModuleContext) (s : Str) (hs : IsName s) :
    Rel (ModuleOutDir ctx) (Join [ModuleOutDir ctx, s]) = .ok s :=
  Rel_Join_name _ s (ModuleOutDir_clean ctx) hs

/-- C9: every derived output path is rooted under the module output directory:
for every module context each of the eight derived directories lies under
`ModuleOutDir(ctx)`, that is, `filepath.Rel(ModuleOutDir(ctx), F(ctx))` succeeds
and equals the fixed suffix of `F` (so it has no `..` component); and
`ModuleOutDir(ctx)` itself lies under the intermediates root, which is an
absolute path and so not the empty string, whenever module directory, module
name and module sub-directory have no `..` component. -/
theorem derived_paths_rooted (ctx : AndroidModuleContext) :
    Rel (ModuleOutDir ctx) (ModuleBinDir ctx) = .ok "bin".toList ∧
    Rel (ModuleOutDir ctx) (ModuleLibDir ctx) = .ok "lib".toList ∧
    Rel (ModuleOutDir ctx) (ModuleGenDir ctx) = .ok "gen".toList ∧
    Rel (ModuleOutDir ctx) (ModuleObjDir ctx) = .ok "obj".toList ∧
    Rel (ModuleOutDir ctx) (ModuleGoPackageDir ctx) = .ok "pkg".toList ∧
    Rel (ModuleOutDir ctx) (ModuleIncludeDir ctx) = .ok "include".toList ∧
    Rel (ModuleOutDir ctx) (ModuleProtoDir ctx) = .ok "proto".toList ∧
    Rel (ModuleOutDir ctx) (ModuleJSCompiledDir ctx) = .ok "js".toList ∧
    (ctx.AConfig.IntermediatesDir ≠ [] →
      "..".toList ∉ components ctx.ModuleDir → "..".toList ∉ components ctx.ModuleName →
      "..".toList ∉ components ctx.ModuleSubDir →
      liesUnder ctx.AConfig.IntermediatesDir (ModuleOutDir ctx) = true) := by
  refine ⟨Rel_out_suffix ctx _ (by decide), Rel_out_suffix ctx _ (by decide),
    Rel_out_suffix ctx _ (by decide), Rel_out_suffix ctx _ (by decide),
    Rel_out_suffix ctx _ (by decide), Rel_out_suffix ctx _ (by decide),
    Rel_out_suffix ctx _ (by decide), Rel_out_suffix ctx _ (by decide), ?_⟩
  intro hroot hdir hname hsub
  have hq : (['.', '.'] : Str) ∉ elements
      (ctx.ModuleDir ++ Separator :: (ctx.ModuleName ++ Separator :: ctx.ModuleSubDir)) := by
    rw [elements_append_sep, elements_append_sep, List.mem_append, List.mem_append]
    rintro (h | h | h)
    · exact up_not_mem_elements _ hdir h
    · exact up_not_mem_elements _ hname h
    · exact up_not_mem_elements _ hsub h
  have hout : ModuleOutDir ctx = Clean (Clean ctx.AConfig.IntermediatesDir ++ Separator ::
      (ctx.ModuleDir ++ Separator :: (ctx.ModuleName ++ Separator :: ctx.ModuleSubDir))) := by
    rw [ModuleOutDir, Join_cons_ne _ _ hroot, ← Clean_append_left _ _ hroot]
    simp [stringsJoin]
  have hrel := Rel_clean_base (Clean ctx.AConfig.IntermediatesDir) _ (Clean_idem _) hq
  rw [← hout] at hrel
  have hclean : Clean (ModuleOutDir ctx) = ModuleOutDir ctx := by
    rw [hout]; exact Clean_idem _
  rw [← hclean] at hrel
  have hres := Rel_ok_of_clean _ _ _ hrel
  rw [liesUnder, hres]
  simp only [decide_eq_true_eq]
  have hns := elements_names _ hq
  split
  · decide
  · rename_i hne
    rw [components_stringsJoin _ (fun x hx => (hns x hx).2.1) hne]
    exact hq

/-- Witness for C9: the module `m` of directory `a` under `/out`. -/
theorem derived_paths_rooted_witness :
    Rel "/out/a/m/v".toList "/out/a/m/v/bin".toList = .ok "bin".toList ∧
    liesUnder "/out".toList "/out/a/m/v".toList = true :=
  have h := derived_paths_rooted (mkCtx "/src" "/out" "a" "m" "v")
  ⟨h.1, h.2.2.2.2.2.2.2.2 (by decide) (by decide) (by decide) (by decide)⟩

/-- C10 (as stated, refuted): with source root `/src` and module directory `.`, a
non-empty clean relative path without `..`, `ModuleSrcDir` is `/src` and not
`/src/.`. -/
theorem ModuleSrcDir_dot_counterexample :
    Clean "/src".toList = "/src".toList ∧ IsAbs "/src".toList = true ∧
    "/src".toList ≠ "/".toList ∧
    ".".toList ≠ ([] : Str) ∧ Clean ".".toList = ".".toList ∧ IsAbs ".".toList = false ∧
    "..".toList ∉ components ".".toList ∧
    ModuleSrcDir (mkCtx "/src" "/out" "." "m" "v") = "/src".toList ∧
    ModuleSrcDir (mkCtx "/src" "/out" "." "m" "v") ≠ "/src".toList ++ "/".toList ++ ".".toList := by
  decide

/-- C10 (amended): `ModuleSrcDir(ctx)` is `Join(sourceRoot, moduleDir)`; two
contexts that agree on the source root and the module directory have the same
`ModuleSrcDir`, whatever their intermediates root, module name and module
sub-directory are; and for a clean absolute source root other than `/` and a
non-empty clean relative module directory without `..` component and different
from `.`, it is the string `sourceRoot + "/" + moduleDir`. -/
theorem ModuleSrcDir_depends_on_src_and_dir (ctx ctx' : AndroidModuleContext)
    (hsrc : ctx'.AConfig.SrcDir = ctx.AConfig.SrcDir)
    (hdir : ctx'.ModuleDir = ctx.ModuleDir) :
    ModuleSrcDir ctx = Join [ctx.AConfig.SrcDir, ctx.ModuleDir] ∧
    ModuleSrcDir ctx' = ModuleSrcDir ctx ∧
    (Clean ctx.AConfig.SrcDir = ctx.AConfig.SrcDir → IsAbs ctx.AConfig.SrcDir = true →
      ctx.AConfig.SrcDir ≠ "/".toList → ctx.ModuleDir ≠ [] →
      Clean ctx.ModuleDir = ctx.ModuleDir → IsAbs ctx.ModuleDir = false →
      "..".toList ∉ components ctx.ModuleDir → ctx.ModuleDir ≠ ".".toList →
      ModuleSrcDir ctx = ctx.AConfig.SrcDir ++ "/".toList ++ ctx.ModuleDir) := by
  refine ⟨rfl, by simp [ModuleSrcDir, hsrc, hdir], ?_⟩
  intro h1 h2 h3 _ h5 h6 h7 h8
  have := Join_root_dir ctx.AConfig.SrcDir ctx.ModuleDir [] h1 h2 h3 h5 h6 h7 h8
    (by intro n hn; simp at hn)
  rw [ModuleSrcDir, this]
  simp [stringsJoin, Separator]

/-- Witness for C10: two modules of the directory `art/runtime` under `/src`. -/
theorem ModuleSrcDir_depends_on_src_and_dir_witness :
    ModuleSrcDir (mkCtx "/src" "/out" "art/runtime" "libart" "arm")
      = Join ["/src".toList, "art/runtime".toList] ∧
    ModuleSrcDir (mkCtx "/src" "/elsewhere" "art/runtime" "other" "x86")
      = ModuleSrcDir (mkCtx "/src" "/out" "art/runtime" "libart" "arm") ∧
    ModuleSrcDir (mkCtx "/src" "/out" "art/runtime" "libart" "arm")
      = "/src/art/runtime".toList :=
  have h := ModuleSrcDir_depends_on_src_and_dir
    (mkCtx "/src" "/out" "art/runtime" "libart" "arm")
    (mkCtx "/src" "/elsewhere" "art/runtime" "other" "x86") (by decide) (by decide)
  ⟨h.1, h.2.1, h.2.2 (by decide) (by decide) (by decide) (by decide) (by decide) (by decide)
    (by decide) (by decide)⟩

/-! ## Order of probing -/

/-- C11: the errors reported by `CheckModuleSrcDirsExist` and by `CheckSrcDirsExist`
do not depend on the order of the directories: for a permutation `dirs'` of `dirs`
the reports for `dirs'` are a permutation of the reports for `dirs`, and the
reports for `dirs1 ++ dirs2` are the reports for `dirs1` followed by those for
`dirs2`. -/
theorem check_reports_order_independent (stat : Str → Option OsError)
    (ctx : AndroidModuleContext) (prop : Str) (dirs dirs' dirs1 dirs2 : List Str)
    (hperm : dirs'.Perm dirs) :
    (CheckModuleSrcDirsExist stat ctx dirs' prop []).Perm
      (CheckModuleSrcDirsExist stat ctx dirs prop []) ∧
    (CheckSrcDirsExist stat ctx dirs' prop []).Perm
      (CheckSrcDirsExist stat ctx dirs prop []) ∧
    CheckModuleSrcDirsExist stat ctx (dirs1 ++ dirs2) prop []
      = CheckModuleSrcDirsExist stat ctx dirs1 prop []
        ++ CheckModuleSrcDirsExist stat ctx dirs2 prop [] ∧
    CheckSrcDirsExist stat ctx (dirs1 ++ dirs2) prop []
      = CheckSrcDirsExist stat ctx dirs1 prop []
        ++ CheckSrcDirsExist stat ctx dirs2 prop [] := by
  simp only [CheckModuleSrcDirsExist_eq, CheckSrcDirsExist_eq, List.nil_append,
    List.filterMap_append]
  exact ⟨hperm.filterMap _, hperm.filterMap _, trivial, trivial⟩

/-- Witness for C11: three directories of the sample filesystem probed in two
orders. -/
theorem check_reports_order_independent_witness :
    (CheckModuleSrcDirsExist sampleStat (mkCtx "/src" "/out" "m" "lib" "arm")
        ["locked".toList, "a".toList, "missing".toList] "srcs".toList []).Perm
      (CheckModuleSrcDirsExist sampleStat (mkCtx "/src" "/out" "m" "lib" "arm")
        ["a".toList, "missing".toList, "locked".toList] "srcs".toList []) ∧
    CheckModuleSrcDirsExist sampleStat (mkCtx "/src" "/out" "m" "lib" "arm")
        (["a".toList, "missing".toList] ++ ["locked".toList]) "srcs".toList []
      = CheckModuleSrcDirsExist sampleStat (mkCtx "/src" "/out" "m" "lib" "arm")
          ["a".toList, "missing".toList] "srcs".toList []
        ++ CheckModuleSrcDirsExist sampleStat (mkCtx "/src" "/out" "m" "lib" "arm")
          ["locked".toList] "srcs".toList [] :=
  have h := check_reports_order_independent sampleStat (mkCtx "/src" "/out" "m" "lib" "arm")
    "srcs".toList ["a".toList, "missing".toList, "locked".toList]
    ["locked".toList, "a".toList, "missing".toList] ["a".toList, "missing".toList]
    ["locked".toList] (by decide)
  ⟨h.1, h.2.2.1⟩

/-! ## Canonical form of the derived paths -/

theorem Join_eq_nil (es : List Str) : Join es = [] ↔ ∀ e ∈ es, e = [] := by
  induction es with
  | nil => simp [Join]
  | cons e es ih =>
    by_cases h : e = []
    · subst h; rw [Join_nil_cons, ih]; simp
    · rw [Join_cons_ne e es h]
      constructor
      · intro hc; exact absurd hc (Clean_ne_nil _)
      · intro hall; exact absurd (hall e (by simp)) h

/-- Cleaning a non-empty path followed by a separator and an ordinary segment
gives a path of canonical shape. -/
theorem Clean_snoc_canonical (x s : Str) (hx : x ≠ []) (hs : IsName s) :
    IsCanonical (Clean (x ++ Separator :: s)) := by
  have hv := normalize_isValid (IsAbs x) (elements x) (elements_isElem x)
  have hel : elements (x ++ Separator :: s) = elements x ++ [s] := by
    rw [elements_append_sep, elements_of_isElem s (isName_isElem s hs)]
  have hnorm : normalize (IsAbs x) (elements x ++ [s])
      = ⟨(normalize (IsAbs x) (elements x)).ups,
          (normalize (IsAbs x) (elements x)).names ++ [s]⟩ := by
    rw [normalize, List.foldl_append, ← normalize]
    simp [Norm.push, hs.2.2.2]
  have hv' : (⟨(normalize (IsAbs x) (elements x)).ups,
      (normalize (IsAbs x) (elements x)).names ++ [s]⟩ : Norm).Valid (IsAbs x) := by
    refine ⟨hv.1, ?_⟩
    intro n hn
    rcases List.mem_append.mp hn with h | h
    · exact hv.2 n h
    · simp only [List.mem_singleton] at h; rw [h]; exact hs
  have hc : Clean (x ++ Separator :: s)
      = (⟨(normalize (IsAbs x) (elements x)).ups,
          (normalize (IsAbs x) (elements x)).names ++ [s]⟩ : Norm).render (IsAbs x) := by
    rw [Clean_eq_render, IsAbs_append x _ hx, hel, hnorm]
  have habs : IsAbs (Clean (x ++ Separator :: s)) = IsAbs x := by
    rw [hc]; exact IsAbs_render _ _ hv'
  refine ⟨(normalize (IsAbs x) (elements x)).ups,
    (normalize (IsAbs x) (elements x)).names ++ [s], by simp, hv'.2, ?_, ?_⟩
  · rw [habs]; exact hv'.1
  · rw [habs, hc]
    cases hr : IsAbs x
    · rw [hr] at hv'
      rw [render_relative _ hv', if_neg (by simp [Norm.elems])]
      simp [Norm.elems]
    · rw [render_rooted]; simp [Norm.elems]

theorem isName_canonical (s : Str) (hs : IsName s) : IsCanonical s := by
  have hrel : IsAbs s = false := by
    have := IsAbs_stringsJoin_names [s] (by intro n hn; simp at hn; subst hn; exact hs)
    simpa [stringsJoin] using this
  refine ⟨0, [s], by simp, by intro n hn; simp at hn; subst hn; exact hs, fun _ => rfl, ?_⟩
  rw [hrel]; simp [stringsJoin]

/-- Joining any path with an ordinary segment gives a non-empty fixed point of
`Clean` of canonical shape. -/
theorem Join_name_canonical (out s : Str) (hs : IsName s) :
    Join [out, s] ≠ [] ∧ Clean (Join [out, s]) = Join [out, s] ∧ IsCanonical (Join [out, s]) := by
  have hne : Join [out, s] ≠ [] := by
    intro h
    exact hs.1 ((Join_eq_nil _).mp h s (by simp))
  refine ⟨hne, (Join_clean _).resolve_left hne, ?_⟩
  by_cases h0 : out = []
  · subst h0
    rw [Join_nil_cons, Join_cons_ne s [] hs.1]
    simp only [stringsJoin, isName_clean s hs]
    exact isName_canonical s hs
  · rw [Join_cons_ne out _ h0]
    have : stringsJoin [Separator] [out, s] = out ++ Separator :: s := by simp [stringsJoin]
    rw [this]
    exact Clean_snoc_canonical out s h0 hs

/-- C16: every derived path is in canonical lexical form: `ModuleOutDir(ctx)` and
`ModuleSrcDir(ctx)` are the empty string, exactly when every joined component is
empty, or a fixed point of `Clean`; and each of the eight suffix functions returns
a non-empty fixed point of `Clean`, which consists of an optional leading
separator, leading `..` elements and ordinary segments joined by single
separators. -/
theorem derived_paths_canonical (ctx : AndroidModuleContext) :
    (ModuleOutDir ctx = [] ↔ (ctx.AConfig.IntermediatesDir = [] ∧ ctx.ModuleDir = [] ∧
      ctx.ModuleName = [] ∧ ctx.ModuleSubDir = [])) ∧
    (ModuleOutDir ctx = [] ∨ Clean (ModuleOutDir ctx) = ModuleOutDir ctx) ∧
    (ModuleSrcDir ctx = [] ↔ (ctx.AConfig.SrcDir = [] ∧ ctx.ModuleDir = [])) ∧
    (ModuleSrcDir ctx = [] ∨ Clean (ModuleSrcDir ctx) = ModuleSrcDir ctx) ∧
    ∀ p ∈ suffixDirs ctx, p ≠ [] ∧ Clean p = p ∧ IsCanonical p := by
  refine ⟨?_, Join_clean _, ?_, Join_clean _, ?_⟩
  · rw [ModuleOutDir, Join_eq_nil]; simp
  · rw [ModuleSrcDir, Join_eq_nil]; simp
  · intro p hp
    rw [suffixDirs_eq_map, List.mem_map] at hp
    obtain ⟨s, hs, rfl⟩ := hp
    exact Join_name_canonical _ s (suffixes_isName s hs)

/-- Witness for C16: the binary directory of a module with an unclean module
directory. -/
theorem derived_paths_canonical_witness :
    ModuleBinDir (mkCtx "/src" "/out" "a//b/../c/." "m" "") ≠ [] ∧
    Clean (ModuleBinDir (mkCtx "/src" "/out" "a//b/../c/." "m" ""))
      = ModuleBinDir (mkCtx "/src" "/out" "a//b/../c/." "m" "") ∧
    IsCanonical (ModuleBinDir (mkCtx "/src" "/out" "a//b/../c/." "m" "")) :=
  (derived_paths_canonical (mkCtx "/src" "/out" "a//b/../c/." "m" "")).2.2.2.2 _ (by decide)

/-! ## Modules without sub-directory, and distinct modules -/

theorem Clean_append_sep_nil (x : Str) (hx : x ≠ []) :
    Clean (x ++ [Separator]) = Clean x := by
  rw [Clean_eq_render (x ++ [Separator]), Clean_eq_render x, IsAbs_append x _ hx,
    elements_append_sep, elements_nil, List.append_nil]

theorem stringsJoin_snoc_nil (xs : List Str) (hxs : xs ≠ []) :
    stringsJoin [Separator] (xs ++ [[]]) = stringsJoin [Separator] xs ++ [Separator] := by
  rw [stringsJoin_concat _ _ _ hxs]; simp

theorem stringsJoin_cons_ne_nil (sep e : Str) (es : List Str) (he : e ≠ []) :
    stringsJoin sep (e :: es) ≠ [] := by
  cases es with
  | nil => simpa [stringsJoin] using he
  | cons a as => simp [stringsJoin, he]

/-- A trailing empty element does not change the result of `Join`. -/
theorem Join_snoc_nil (es : List Str) : Join (es ++ [[]]) = Join es := by
  induction es with
  | nil => simp [Join]
  | cons e es ih =>
    by_cases h : e = []
    · subst h; rw [List.cons_append, Join_nil_cons, Join_nil_cons, ih]
    · rw [List.cons_append, Join_cons_ne e _ h, Join_cons_ne e _ h, ← List.cons_append,
        stringsJoin_snoc_nil _ (by simp),
        Clean_append_sep_nil _ (stringsJoin_cons_ne_nil _ e es h)]

/-- C14 (as stated, refuted): with an empty module sub-directory, intermediates
root `/out`, module directory `.` (non-empty, clean, relative, without `..`) and
module name `m`, `ModuleOutDir` is `/out/m` and not `/out/./m`. -/
theorem ModuleOutDir_dot_dir_counterexample :
    Clean "/out".toList = "/out".toList ∧ IsAbs "/out".toList = true ∧
    "/out".toList ≠ "/".toList ∧
    ".".toList ≠ ([] : Str) ∧ Clean ".".toList = ".".toList ∧ IsAbs ".".toList = false ∧
    "..".toList ∉ components ".".toList ∧ IsName "m".toList ∧
    ModuleOutDir (mkCtx "/src" "/out" "." "m" "") = "/out/m".toList ∧
    ModuleOutDir (mkCtx "/src" "/out" "." "m" "")
      ≠ "/out".toList ++ "/".toList ++ ".".toList ++ "/".toList ++ "m".toList := by
  decide

/-- C14 (amended): when the module sub-directory is the empty string,
`ModuleOutDir(ctx)` equals `Join(intermediatesRoot, moduleDir, moduleName)`; and
for a clean absolute intermediates root other than `/`, a non-empty clean relative
module directory without `..` component and different from `.`, and a module name
that is a single ordinary segment, it is the string
`intermediatesRoot + "/" + moduleDir + "/" + moduleName`. -/
theorem ModuleOutDir_without_subdir (ctx : AndroidModuleContext)
    (hsub : ctx.ModuleSubDir = []) :
    ModuleOutDir ctx = Join [ctx.AConfig.IntermediatesDir, ctx.ModuleDir, ctx.ModuleName] ∧
    (Clean ctx.AConfig.IntermediatesDir = ctx.AConfig.IntermediatesDir →
      IsAbs ctx.AConfig.IntermediatesDir = true →
      ctx.AConfig.IntermediatesDir ≠ "/".toList → ctx.ModuleDir ≠ [] →
      Clean ctx.ModuleDir = ctx.ModuleDir → IsAbs ctx.ModuleDir = false →
      "..".toList ∉ components ctx.ModuleDir → ctx.ModuleDir ≠ ".".toList →
      IsName ctx.ModuleName →
      ModuleOutDir ctx = ctx.AConfig.IntermediatesDir ++ "/".toList ++ ctx.ModuleDir
        ++ "/".toList ++ ctx.ModuleName) := by
  have h1 : ModuleOutDir ctx
      = Join [ctx.AConfig.IntermediatesDir, ctx.ModuleDir, ctx.ModuleName] := by
    rw [ModuleOutDir, hsub]
    exact Join_snoc_nil [ctx.AConfig.IntermediatesDir, ctx.ModuleDir, ctx.ModuleName]
  refine ⟨h1, ?_⟩
  intro hr habs hne _ hd hrel hnoup hdot hname
  have := Join_root_dir ctx.AConfig.IntermediatesDir ctx.ModuleDir [ctx.ModuleName]
    hr habs hne hd hrel hnoup hdot
    (by intro n hn; simp only [List.mem_singleton] at hn; rw [hn]; exact hname)
  rw [h1, this]
  simp [stringsJoin, Separator]

/-- Witness for C14: a module without sub-directory. -/
theorem ModuleOutDir_without_subdir_witness :
    ModuleOutDir (mkCtx "/src" "/out" "art/runtime" "libart" "")
      = Join ["/out".toList, "art/runtime".toList, "libart".toList] ∧
    ModuleOutDir (mkCtx "/src" "/out" "art/runtime" "libart" "")
      = "/out/art/runtime/libart".toList :=
  have h := ModuleOutDir_without_subdir (mkCtx "/src" "/out" "art/runtime" "libart" "")
    (by decide)
  ⟨h.1, h.2 (by decide) (by decide) (by decide) (by decide) (by decide) (by decide)
    (by decide) (by decide) (by decide)⟩

/-- A well-formed module directory, possibly empty, is a sequence of ordinary
segments joined by separators. -/
theorem moduleDir_names (d : Str) (hd : d = [] ∨ Clean d = d) (hrel : IsAbs d = false)
    (hnoup : "..".toList ∉ components d) (hdot : d ≠ ".".toList) :
    ∃ ns : List Str, (∀ n ∈ ns, IsName n) ∧ elements d = ns ∧
      d = stringsJoin [Separator] ns := by
  by_cases h0 : d = []
  · subst h0
    exact ⟨[], by simp, elements_nil, rfl⟩
  · obtain ⟨ns, hns, hel, hform⟩ := clean_relative_names d (hd.resolve_left h0) hrel hnoup
    have hne : ns ≠ [] := by
      intro h; rw [if_pos h] at hform; exact hdot hform
    rw [if_neg hne] at hform
    exact ⟨ns, hns, hel, hform⟩

/-- The output directory of a well-formed module under a clean absolute
intermediates root, in terms of the segments of the module directory. -/
theorem ModuleOutDir_names (ctx : AndroidModuleContext) (ns : List Str)
    (hroot : Clean ctx.AConfig.IntermediatesDir = ctx.AConfig.IntermediatesDir)
    (habs : IsAbs ctx.AConfig.IntermediatesDir = true)
    (hns : ∀ n ∈ ns, IsName n) (hel : elements ctx.ModuleDir = ns)
    (hname : IsName ctx.ModuleName) (hsub : IsName ctx.ModuleSubDir) :
    ModuleOutDir ctx =
      (if ctx.AConfig.IntermediatesDir = [Separator] then []
        else ctx.AConfig.IntermediatesDir) ++
      Separator :: stringsJoin [Separator] (ns ++ [ctx.ModuleName, ctx.ModuleSubDir]) := by
  have hrootne : ctx.AConfig.IntermediatesDir ≠ [] := by
    intro h; rw [h] at habs; simp [IsAbs] at habs
  have hrootdot : ctx.AConfig.IntermediatesDir ≠ ['.'] := by
    intro h; rw [h] at habs; simp [IsAbs, dot_ne_sep] at habs
  have hqel : elements (ctx.ModuleDir ++ Separator :: (ctx.ModuleName ++ Separator ::
      ctx.ModuleSubDir)) = ns ++ [ctx.ModuleName, ctx.ModuleSubDir] := by
    rw [elements_append_sep, elements_append_sep, hel,
      elements_of_isElem _ (isName_isElem _ hname), elements_of_isElem _ (isName_isElem _ hsub)]
    rfl
  have hq : (['.', '.'] : Str) ∉ elements (ctx.ModuleDir ++ Separator ::
      (ctx.ModuleName ++ Separator :: ctx.ModuleSubDir)) := by
    rw [hqel]
    intro hm
    rcases List.mem_append.mp hm with h | h
    · exact (hns _ h).2.2.2 rfl
    · simp only [List.mem_cons, List.mem_singleton, List.not_mem_nil, or_false] at h
      rcases h with h | h
      · exact hname.2.2.2 h.symm
      · exact hsub.2.2.2 h.symm
  have happ := Clean_append _ hroot _ hq
  rw [hqel, if_neg (by simp), if_neg hrootdot] at happ
  have hjoin : ModuleOutDir ctx = Clean (ctx.AConfig.IntermediatesDir ++ Separator ::
      (ctx.ModuleDir ++ Separator :: (ctx.ModuleName ++ Separator :: ctx.ModuleSubDir))) := by
    rw [ModuleOutDir, Join_cons_ne _ _ hrootne]; simp [stringsJoin]
  rw [hjoin, happ]
  by_cases h1 : ctx.AConfig.IntermediatesDir = [Separator]
  · rw [if_pos h1, if_pos h1]; rfl
  · rw [if_neg h1, if_neg h1]

theorem stringsJoin_injective (xs ys : List Str) (hx : ∀ x ∈ xs, Separator ∉ x)
    (hy : ∀ y ∈ ys, Separator ∉ y) (hxne : xs ≠ []) (hyne : ys ≠ [])
    (h : stringsJoin [Separator] xs = stringsJoin [Separator] ys) : xs = ys := by
  rw [← components_stringsJoin xs hx hxne, ← components_stringsJoin ys hy hyne, h]

/-- The output directory of a well-formed module determines its module directory,
name and sub-directory. -/
theorem ModuleOutDir_inj (ctx1 ctx2 : AndroidModuleContext)
    (hsame : ctx2.AConfig.IntermediatesDir = ctx1.AConfig.IntermediatesDir)
    (hroot : Clean ctx1.AConfig.IntermediatesDir = ctx1.AConfig.IntermediatesDir)
    (habs : IsAbs ctx1.AConfig.IntermediatesDir = true)
    (hd1 : ctx1.ModuleDir = [] ∨ Clean ctx1.ModuleDir = ctx1.ModuleDir)
    (hrel1 : IsAbs ctx1.ModuleDir = false)
    (hnoup1 : "..".toList ∉ components ctx1.ModuleDir) (hdot1 : ctx1.ModuleDir ≠ ".".toList)
    (hname1 : IsName ctx1.ModuleName) (hsub1 : IsName ctx1.ModuleSubDir)
    (hd2 : ctx2.ModuleDir = [] ∨ Clean ctx2.ModuleDir = ctx2.ModuleDir)
    (hrel2 : IsAbs ctx2.ModuleDir = false)
    (hnoup2 : "..".toList ∉ components ctx2.ModuleDir) (hdot2 : ctx2.ModuleDir ≠ ".".toList)
    (hname2 : IsName ctx2.ModuleName) (hsub2 : IsName ctx2.ModuleSubDir)
    (heq : ModuleOutDir ctx1 = ModuleOutDir ctx2) :
    ctx1.ModuleDir = ctx2.ModuleDir ∧ ctx1.ModuleName = ctx2.ModuleName ∧
      ctx1.ModuleSubDir = ctx2.ModuleSubDir := by
  obtain ⟨ns1, hns1, hel1, hform1⟩ := moduleDir_names _ hd1 hrel1 hnoup1 hdot1
  obtain ⟨ns2, hns2, hel2, hform2⟩ := moduleDir_names _ hd2 hrel2 hnoup2 hdot2
  have h1 := ModuleOutDir_names ctx1 ns1 hroot habs hns1 hel1 hname1 hsub1
  have h2 := ModuleOutDir_names ctx2 ns2 (by rw [hsame]; exact hroot)
    (by rw [hsame]; exact habs) hns2 hel2 hname2 hsub2
  rw [hsame] at h2
  rw [h1, h2] at heq
  have hj := List.cons_injective (List.append_cancel_left heq)
  have hsep : ∀ (ns : List Str) (a b : Str), (∀ n ∈ ns, IsName n) → IsName a → IsName b →
      ∀ x ∈ ns ++ [a, b], Separator ∉ x := by
    intro ns a b hns ha hb x hx
    rcases List.mem_append.mp hx with h | h
    · exact (hns x h).2.1
    · simp only [List.mem_cons, List.mem_singleton, List.not_mem_nil, or_false] at h
      rcases h with h | h
      · rw [h]; exact ha.2.1
      · rw [h]; exact hb.2.1
  have hl := stringsJoin_injective _ _ (hsep ns1 _ _ hns1 hname1 hsub1)
    (hsep ns2 _ _ hns2 hname2 hsub2) (by simp) (by simp) hj
  have := List.append_inj' hl rfl
  obtain ⟨hns, hrest⟩ := this
  simp only [List.cons.injEq, and_true] at hrest
  exact ⟨by rw [hform1, hform2, hns], hrest.1, hrest.2⟩

/-- The output directory of a well-formed module under a clean absolute
intermediates root is absolute and is not `/`. -/
theorem ModuleOutDir_abs_of_names (ctx : AndroidModuleContext) (ns : List Str)
    (hroot : Clean ctx.AConfig.IntermediatesDir = ctx.AConfig.IntermediatesDir)
    (habs : IsAbs ctx.AConfig.IntermediatesDir = true)
    (hns : ∀ n ∈ ns, IsName n) (hel : elements ctx.ModuleDir = ns)
    (hname : IsName ctx.ModuleName) (hsub : IsName ctx.ModuleSubDir) :
    IsAbs (ModuleOutDir ctx) = true ∧ ModuleOutDir ctx ≠ [Separator] := by
  have h := ModuleOutDir_names ctx ns hroot habs hns hel hname hsub
  have hall : ∀ x ∈ ns ++ [ctx.ModuleName, ctx.ModuleSubDir], x ≠ [] := by
    intro x hx
    rcases List.mem_append.mp hx with h | h
    · exact (hns x h).1
    · simp only [List.mem_cons, List.mem_singleton, List.not_mem_nil, or_false] at h
      rcases h with h | h
      · rw [h]; exact hname.1
      · rw [h]; exact hsub.1
  have hj : stringsJoin [Separator] (ns ++ [ctx.ModuleName, ctx.ModuleSubDir]) ≠ [] :=
    fun hj => by
      have := (stringsJoin_eq_nil _ _ hall).mp hj
      simp at this
  rw [h]
  by_cases h1 : ctx.AConfig.IntermediatesDir = [Separator]
  · rw [if_pos h1]
    exact ⟨by simp [IsAbs], by simpa using hj⟩
  · rw [if_neg h1]
    have hrootne : ctx.AConfig.IntermediatesDir ≠ [] := by
      intro h; rw [h] at habs; simp [IsAbs] at habs
    refine ⟨by rw [IsAbs_append _ _ hrootne]; exact habs, ?_⟩
    intro hc
    have := congrArg List.length hc
    have hpos : 0 < ctx.AConfig.IntermediatesDir.length := List.length_pos.mpr hrootne
    simp only [List.length_append, List.length_cons, List.length_nil] at this
    omega

/-- C13: under a fixed clean absolute intermediates root, two modules whose module
directories are clean relative paths (possibly empty) without `..` component and
different from `.`, and whose names and sub-directories are single ordinary
segments, and which differ in module directory, name or sub-directory, have
different output directories, and so a different directory for each of the eight
suffixes. -/
theorem ModuleOutDir_injective (ctx1 ctx2 : AndroidModuleContext)
    (hsame : ctx2.AConfig.IntermediatesDir = ctx1.AConfig.IntermediatesDir)
    (hroot : Clean ctx1.AConfig.IntermediatesDir = ctx1.AConfig.IntermediatesDir)
    (habs : IsAbs ctx1.AConfig.IntermediatesDir = true)
    (hd1 : ctx1.ModuleDir = [] ∨ Clean ctx1.ModuleDir = ctx1.ModuleDir)
    (hrel1 : IsAbs ctx1.ModuleDir = false)
    (hnoup1 : "..".toList ∉ components ctx1.ModuleDir) (hdot1 : ctx1.ModuleDir ≠ ".".toList)
    (hname1 : IsName ctx1.ModuleName) (hsub1 : IsName ctx1.ModuleSubDir)
    (hd2 : ctx2.ModuleDir = [] ∨ Clean ctx2.ModuleDir = ctx2.ModuleDir)
    (hrel2 : IsAbs ctx2.ModuleDir = false)
    (hnoup2 : "..".toList ∉ components ctx2.ModuleDir) (hdot2 : ctx2.ModuleDir ≠ ".".toList)
    (hname2 : IsName ctx2.ModuleName) (hsub2 : IsName ctx2.ModuleSubDir)
    (hdiff : (ctx1.ModuleDir, ctx1.ModuleName, ctx1.ModuleSubDir)
      ≠ (ctx2.ModuleDir, ctx2.ModuleName, ctx2.ModuleSubDir)) :
    ModuleOutDir ctx1 ≠ ModuleOutDir ctx2 ∧
    ModuleBinDir ctx1 ≠ ModuleBinDir ctx2 ∧
    ModuleLibDir ctx1 ≠ ModuleLibDir ctx2 ∧
    ModuleGenDir ctx1 ≠ ModuleGenDir ctx2 ∧
    ModuleObjDir ctx1 ≠ ModuleObjDir ctx2 ∧
    ModuleGoPackageDir ctx1 ≠ ModuleGoPackageDir ctx2 ∧
    ModuleIncludeDir ctx1 ≠ ModuleIncludeDir ctx2 ∧
    ModuleProtoDir ctx1 ≠ ModuleProtoDir ctx2 ∧
    ModuleJSCompiledDir ctx1 ≠ ModuleJSCompiledDir ctx2 := by
  have hout : ModuleOutDir ctx1 ≠ ModuleOutDir ctx2 := by
    intro heq
    obtain ⟨h1, h2, h3⟩ := ModuleOutDir_inj ctx1 ctx2 hsame hroot habs hd1 hrel1 hnoup1 hdot1
      hname1 hsub1 hd2 hrel2 hnoup2 hdot2 hname2 hsub2 heq
    exact hdiff (by rw [h1, h2, h3])
  obtain ⟨ns1, hns1, hel1, _⟩ := moduleDir_names _ hd1 hrel1 hnoup1 hdot1
  obtain ⟨ns2, hns2, hel2, _⟩ := moduleDir_names _ hd2 hrel2 hnoup2 hdot2
  have ha1 := ModuleOutDir_abs_of_names ctx1 ns1 hroot habs hns1 hel1 hname1 hsub1
  have ha2 := ModuleOutDir_abs_of_names ctx2 ns2 (by rw [hsame]; exact hroot)
    (by rw [hsame]; exact habs) hns2 hel2 hname2 hsub2
  have hsuf : ∀ s : Str, IsName s →
      Join [ModuleOutDir ctx1, s] ≠ Join [ModuleOutDir ctx2, s] := by
    intro s hs heq
    rw [Join_out_abs ctx1 ha1.1 ha1.2 s hs, Join_out_abs ctx2 ha2.1 ha2.2 s hs] at heq
    exact hout (List.append_cancel_right (List.append_cancel_right heq))
  exact ⟨hout, hsuf _ (by decide), hsuf _ (by decide), hsuf _ (by decide), hsuf _ (by decide),
    hsuf _ (by decide), hsuf _ (by decide), hsuf _ (by decide), hsuf _ (by decide)⟩

/-- Witness for C13: the modules `a/b`, `c`, `v` and `a`, `b`, `c` under `/out`;
the join of directory and name is the same, the sub-directory differs. -/
theorem ModuleOutDir_injective_witness :
    ModuleOutDir (mkCtx "/src" "/out" "a/b" "c" "v") ≠ ModuleOutDir (mkCtx "/src" "/out" "a" "b" "c") ∧
    ModuleBinDir (mkCtx "/src" "/out" "a/b" "c" "v") ≠ ModuleBinDir (mkCtx "/src" "/out" "a" "b" "c") :=
  have h := ModuleOutDir_injective (mkCtx "/src" "/out" "a/b" "c" "v")
    (mkCtx "/src" "/out" "a" "b" "c") (by decide) (by decide) (by decide) (by decide)
    (by decide) (by decide) (by decide) (by decide) (by decide) (by decide) (by decide)
    (by decide) (by decide) (by decide) (by decide) (by decide)
  ⟨h.1, h.2.1⟩

/-! ## Module-relative and top-level checks -/

theorem push_name_then_up (r : Bool) (t : Norm) (b : Str) (hb : IsName b) :
    Norm.push r (Norm.push r t b) ['.', '.'] = t := by
  have h1 : Norm.push r t b = ⟨t.ups, t.names ++ [b]⟩ := by simp [Norm.push, hb.2.2.2]
  rw [h1]
  simp [Norm.push]

/-- Normalising a sequence of elements as a relative path first does not change
what the sequence does to a normalised sequence. -/
theorem foldl_push_normalize (r : Bool) (B : List Str) (hB : ∀ e ∈ B, IsElem e) :
    ∀ s : Norm, (normalize false B).elems.foldl (Norm.push r) s = B.foldl (Norm.push r) s := by
  induction B using List.reverseRecOn with
  | nil => intro s; simp [normalize, Norm.elems]
  | append_singleton B e ih =>
    intro s
    have hB' : ∀ x ∈ B, IsElem x := fun x hx => hB x (by simp [hx])
    have he : IsElem e := hB e (by simp)
    have ih' := ih hB' s
    have hv := normalize_isValid false B hB'
    have hN : normalize false (B ++ [e]) = Norm.push false (normalize false B) e := by
      simp [normalize, List.foldl_append]
    rw [hN, List.foldl_append, List.foldl_cons, List.foldl_nil, ← ih']
    by_cases hup : e = ['.', '.']
    · subst hup
      rcases List.eq_nil_or_concat (normalize false B).names with hnil | ⟨L, b, hL⟩
      · have hp : Norm.push false (normalize false B) ['.', '.']
            = ⟨(normalize false B).ups + 1, []⟩ := by simp [Norm.push, hnil]
        rw [hp]
        simp only [Norm.elems, hnil, List.append_nil, List.replicate_succ', List.foldl_append,
          List.foldl_cons, List.foldl_nil]
      · have hb : IsName b := hv.2 b (by rw [hL]; simp)
        have hp : Norm.push false (normalize false B) ['.', '.']
            = ⟨(normalize false B).ups, L⟩ := by simp [Norm.push, hL]
        rw [hp]
        have hel : (normalize false B).elems
            = (⟨(normalize false B).ups, L⟩ : Norm).elems ++ [b] := by
          simp [Norm.elems, hL]
        rw [hel, List.foldl_append, List.foldl_cons, List.foldl_nil, push_name_then_up r _ b hb]
    · have hp : Norm.push false (normalize false B) e
          = ⟨(normalize false B).ups, (normalize false B).names ++ [e]⟩ := by
        simp [Norm.push, hup]
      rw [hp]
      have hel : (⟨(normalize false B).ups, (normalize false B).names ++ [e]⟩ : Norm).elems
          = (normalize false B).elems ++ [e] := by simp [Norm.elems]
      rw [hel, List.foldl_append, List.foldl_cons, List.foldl_nil]

theorem elements_Clean (x : Str) :
    elements (Clean x) = (normalize (IsAbs x) (elements x)).elems := by
  rw [Clean_eq_render x]
  exact elements_render _ _ (normalize_isValid _ _ (elements_isElem x))

theorem IsAbs_Clean (x : Str) : IsAbs (Clean x) = IsAbs x := by
  rw [Clean_eq_render x]
  exact IsAbs_render _ _ (normalize_isValid _ _ (elements_isElem x))

theorem takeWhile_stringsJoin_cons (x : Str) (xs : List Str) (hx : Separator ∉ x) :
    (stringsJoin [Separator] (x :: xs)).takeWhile (fun c => c != Separator) = x := by
  cases xs with
  | nil => simpa [stringsJoin] using takeWhile_no_sep_all x hx
  | cons y ys =>
    simp only [stringsJoin, List.append_assoc, List.singleton_append]
    exact takeWhile_no_sep x _ hx

theorem dropWhile_stringsJoin_cons (x : Str) (xs : List Str) (hx : Separator ∉ x) :
    ((stringsJoin [Separator] (x :: xs)).dropWhile (fun c => c != Separator)).drop 1
      = stringsJoin [Separator] xs := by
  cases xs with
  | nil => simp [stringsJoin, dropWhile_no_sep_all x hx]
  | cons y ys =>
    simp only [stringsJoin, List.append_assoc, List.singleton_append]
    rw [dropWhile_no_sep x _ hx]
    rfl

theorem head_stringsJoin_segments (ys : List Str) (hy : ∀ y ∈ ys, y ≠ [] ∧ Separator ∉ y) :
    (stringsJoin [Separator] ys).head? ≠ some Separator := by
  cases ys with
  | nil => simp [stringsJoin]
  | cons y ys =>
    have hy1 := hy y (by simp)
    rw [head_stringsJoin [Separator] y ys hy1.1]
    cases y with
    | nil => exact absurd rfl hy1.1
    | cons c t =>
      intro hc
      simp only [List.head?_cons, Option.some.injEq] at hc
      exact hy1.2 (by simp [hc])

/-- The loop of `Rel` on two sequences of segments joined by separators stops
after a common beginning `P` of the two sequences, at the first remaining
segment of the base (the empty element when the base is used up). -/
theorem relLoop_segments (xs : List Str) (hx : ∀ x ∈ xs, x ≠ [] ∧ Separator ∉ x) :
    ∀ (ys : List Str), (∀ y ∈ ys, y ≠ [] ∧ Separator ∉ y) →
      ∀ fuel : Nat, xs.length ≤ fuel →
        ∃ (P xs' ys' : List Str), xs = P ++ xs' ∧ ys = P ++ ys' ∧
          relLoop fuel (stringsJoin [Separator] xs) (stringsJoin [Separator] ys)
            = ⟨stringsJoin [Separator] xs', xs'.headD [], stringsJoin [Separator] ys'⟩ := by
  induction xs with
  | nil =>
    intro ys hy fuel _
    refine ⟨[], [], ys, rfl, rfl, ?_⟩
    simp only [stringsJoin, List.headD_nil]
    exact relLoop_nil_left fuel _ (head_stringsJoin_segments ys hy)
  | cons x xs ih =>
    intro ys hy fuel hfuel
    have hx1 := hx x (by simp)
    cases fuel with
    | zero => simp at hfuel
    | succ f =>
      have hf : xs.length ≤ f := by simpa using hfuel
      have hbne := stringsJoin_cons_ne_nil [Separator] x xs hx1.1
      cases ys with
      | nil =>
        refine ⟨[], x :: xs, [], rfl, rfl, ?_⟩
        rw [relLoop, if_pos (Or.inl hbne)]
        simp only [takeWhile_stringsJoin_cons x xs hx1.2, stringsJoin, List.takeWhile_nil,
          List.headD_cons]
        rw [if_pos (fun h => hx1.1 h.symm)]
      | cons y ys =>
        have hy1 := hy y (by simp)
        rw [relLoop, if_pos (Or.inl hbne)]
        simp only [takeWhile_stringsJoin_cons x xs hx1.2, takeWhile_stringsJoin_cons y ys hy1.2,
          dropWhile_stringsJoin_cons x xs hx1.2, dropWhile_stringsJoin_cons y ys hy1.2]
        by_cases hxy : y = x
        · subst hxy
          obtain ⟨P, xs', ys', h1, h2, h3⟩ :=
            ih (fun z hz => hx z (by simp [hz])) ys (fun z hz => hy z (by simp [hz])) f hf
          refine ⟨y :: P, xs', ys', by rw [h1]; rfl, by rw [h2]; rfl, ?_⟩
          rw [if_neg (by simp)]
          exact h3
        · refine ⟨[], x :: xs, y :: ys, rfl, rfl, ?_⟩
          rw [if_pos hxy]
          rfl

theorem dotdots_eq (n : Nat) :
    (['.', '.'] : Str) ++ (List.replicate n [Separator, '.', '.']).flatten
      = stringsJoin [Separator] (List.replicate (n + 1) ['.', '.']) := by
  induction n with
  | zero => simp [stringsJoin]
  | succ n ih =>
    rw [List.replicate_succ (n := n + 1), List.replicate_succ (n := n)] at *
    simp only [stringsJoin, List.flatten_cons] at ih ⊢
    rw [← ih]
    simp

theorem count_sep_stringsJoin (xs : List Str) (hx : ∀ x ∈ xs, Separator ∉ x) :
    (stringsJoin [Separator] xs).count Separator = xs.length - 1 := by
  induction xs with
  | nil => simp [stringsJoin]
  | cons x xs ih =>
    have hx1 : x.count Separator = 0 := List.count_eq_zero.mpr (hx x (by simp))
    cases xs with
    | nil => simpa [stringsJoin] using hx1
    | cons y ys =>
      have := ih (fun z hz => hx z (by simp [hz]))
      simp only [stringsJoin, List.count_append, List.length_cons] at this ⊢
      rw [this, hx1]
      simp
      omega

theorem elements_segment (z : Str) (hz : z ≠ [] ∧ Separator ∉ z) :
    elements z = if z = ['.'] then [] else [z] := by
  simp only [elements, components_of_no_sep z hz.2]
  by_cases h : z = ['.']
  · simp [h]
  · simp [h, hz.1]

theorem elements_stringsJoin_segments (zs : List Str)
    (hz : ∀ z ∈ zs, z ≠ [] ∧ Separator ∉ z) :
    elements (stringsJoin [Separator] zs) = zs.filter (fun z => decide (z ≠ ['.'])) := by
  induction zs with
  | nil => simp [stringsJoin, elements_nil]
  | cons z zs ih =>
    have hz1 := hz z (by simp)
    have ih' := ih (fun w hw => hz w (by simp [hw]))
    cases zs with
    | nil =>
      simp only [stringsJoin, elements_segment z hz1]
      by_cases h : z = ['.'] <;> simp [h]
    | cons y ys =>
      simp only [stringsJoin, List.append_assoc, List.singleton_append]
      rw [elements_append_sep, ih', elements_segment z hz1]
      by_cases h : z = ['.'] <;> simp [List.filter_cons, h]

theorem foldl_push_pop (rooted : Bool) (u : Nat) (P : List Str) (xs : List Str) :
    (List.replicate xs.length (['.', '.'] : Str)).foldl (Norm.push rooted) ⟨u, P ++ xs⟩
      = ⟨u, P⟩ := by
  induction xs using List.reverseRecOn with
  | nil => simp
  | append_singleton l a ih =>
    rw [List.length_append, List.length_singleton, List.replicate_succ, List.foldl_cons]
    have hpush : Norm.push rooted ⟨u, P ++ (l ++ [a])⟩ ['.', '.'] = ⟨u, P ++ l⟩ := by
      have hne : P ++ (l ++ [a]) ≠ [] := by simp
      simp only [Norm.push, if_true]
      rw [if_pos hne, ← List.append_assoc, List.dropLast_concat]
    rw [hpush, ih]

/-- The base of the loop of `Rel` (the cleaned base path, with `.` turned into the
empty string) is the root mark followed by the joined elements. -/
theorem rel_base_form (rooted : Bool) (s : Norm) (hv : s.Valid rooted) :
    (if s.render rooted = ['.'] then [] else s.render rooted)
      = (if rooted then [Separator] else []) ++ stringsJoin [Separator] s.elems := by
  cases rooted
  · by_cases he : s.elems = []
    · have : s.render false = ['.'] := by rw [render_relative s hv, if_pos he]
      rw [if_pos this, he]; rfl
    · have hne : s.render false ≠ ['.'] := by
        intro h
        have h1 := elements_render false s hv
        rw [h] at h1
        exact he (h1.symm.trans (by decide))
      rw [if_neg hne, render_relative s hv, if_neg he]; rfl
  · rw [render_rooted]
    have hne : Separator :: stringsJoin [Separator] s.elems ≠ ['.'] := by
      intro h
      have h1 : Separator = '.' := (List.cons.inj h).1
      exact absurd h1 (by decide)
    rw [if_neg hne]; rfl

/-- The cleaned target path is the root mark followed by joined segments, which
are its elements, or the single segment `.` for the path `.`. -/
theorem rel_targ_form (rooted : Bool) (s : Norm) (hv : s.Valid rooted) :
    ∃ ys : List Str, (∀ y ∈ ys, y ≠ [] ∧ Separator ∉ y) ∧
      ys.filter (fun z => decide (z ≠ ['.'])) = s.elems ∧
      s.render rooted = (if rooted then [Separator] else []) ++ stringsJoin [Separator] ys := by
  have hseg : ∀ y ∈ s.elems, y ≠ [] ∧ Separator ∉ y := fun y hy =>
    ⟨(hv.isElem y hy).1, (hv.isElem y hy).2.1⟩
  have hfilter : s.elems.filter (fun z => decide (z ≠ ['.'])) = s.elems := by
    rw [List.filter_eq_self]
    intro y hy
    simpa using (hv.isElem y hy).2.2
  cases rooted
  · by_cases he : s.elems = []
    · refine ⟨[['.']], by decide, by rw [he]; rfl, ?_⟩
      rw [render_relative s hv, if_pos he]; rfl
    · refine ⟨s.elems, hseg, hfilter, ?_⟩
      rw [render_relative s hv, if_neg he]; rfl
  · refine ⟨s.elems, hseg, hfilter, ?_⟩
    rw [render_rooted]; rfl

theorem relLoop_root_mark (rooted : Bool) (b t : Str) (fuel : Nat) :
    relLoop (((if rooted then [Separator] else []) ++ b).length + fuel)
        ((if rooted then [Separator] else []) ++ b) ((if rooted then [Separator] else []) ++ t)
      = relLoop (b.length + fuel) b t := by
  cases rooted
  · rfl
  · have := relLoop_step (b.length + fuel) [] b t (by simp)
    simp only [List.nil_append] at this
    rw [← this]
    simp only [if_true, List.singleton_append, List.length_cons]
    congr 1
    omega

theorem rel_result_form (xs ys : List Str) (hx : ∀ x ∈ xs, x ≠ [] ∧ Separator ∉ x)
    (hy : ∀ y ∈ ys, y ≠ [] ∧ Separator ∉ y) :
    (if stringsJoin [Separator] xs ≠ [] then
        Clean ((['.', '.'] : Str)
          ++ (List.replicate ((stringsJoin [Separator] xs).count Separator)
                [Separator, '.', '.']).flatten
          ++ (if stringsJoin [Separator] ys ≠ [] then Separator :: stringsJoin [Separator] ys
              else []))
      else Clean (stringsJoin [Separator] ys))
      = Clean (stringsJoin [Separator] (List.replicate xs.length ['.', '.'] ++ ys)) := by
  have hxe := stringsJoin_eq_nil [Separator] xs (fun x h => (hx x h).1)
  have hye := stringsJoin_eq_nil [Separator] ys (fun y h => (hy y h).1)
  by_cases hxs : xs = []
  · subst hxs
    simp [stringsJoin]
  · have hxn : stringsJoin [Separator] xs ≠ [] := fun h => hxs (hxe.mp h)
    have hlen : xs.length - 1 + 1 = xs.length := by
      have : 0 < xs.length := List.length_pos.mpr hxs
      omega
    rw [if_pos hxn, count_sep_stringsJoin xs (fun x h => (hx x h).2), dotdots_eq, hlen]
    have hrep : List.replicate xs.length (['.', '.'] : Str) ≠ [] := by
      intro h
      have := congrArg List.length h
      simp at this
      exact hxs this
    by_cases hys : ys = []
    · subst hys
      simp [stringsJoin]
    · have hyn : stringsJoin [Separator] ys ≠ [] := fun h => hys (hye.mp h)
      rw [if_pos hyn, stringsJoin_append [Separator] _ _ hrep hys]
      simp

/-- In a normalised sequence, what follows a beginning `P` consists of ordinary
segments as soon as its first element is not `..`. -/
theorem names_of_rest (s : Norm) (P xs : List Str) (h : s.elems = P ++ xs)
    (hhead : xs.headD [] ≠ ['.', '.']) :
    ∃ N : List Str, s.names = N ++ xs ∧ P = List.replicate s.ups ['.', '.'] ++ N := by
  rw [Norm.elems, List.append_eq_append_iff] at h
  rcases h with ⟨a, h1, h2⟩ | ⟨c, h1, h2⟩
  · exact ⟨a, h2, h1⟩
  · cases c with
    | nil =>
      refine ⟨[], ?_, ?_⟩
      · simpa using h2.symm
      · simpa using h1.symm
    | cons z c =>
      exfalso
      have hz : z ∈ List.replicate s.ups (['.', '.'] : Str) := by rw [h1]; simp
      rw [h2, List.eq_of_mem_replicate hz] at hhead
      exact hhead rfl


/-- The shape of a result of `Rel`: the base and the target are equal after
cleaning and the result is `.`, or the base normalises to the sequence `s`
followed by the ordinary segments `xs`, the target is `s` followed by `ys`, and
the result is the cleaned path of `xs.length` times `..` followed by `ys`. -/
theorem Rel_ok_shape (root path r : Str) (h : Rel root path = .ok r) :
    IsAbs root = IsAbs path ∧
    ((Clean path = Clean root ∧ r = ['.']) ∨
      ∃ (s : Norm) (xs ys : List Str), s.Valid (IsAbs path) ∧
        (∀ y ∈ ys, y ≠ [] ∧ Separator ∉ y) ∧
        normalize (IsAbs path) (elements root) = ⟨s.ups, s.names ++ xs⟩ ∧
        elements (Clean path) = s.elems ++ ys.filter (fun z => decide (z ≠ ['.'])) ∧
        Clean path = (if IsAbs path then [Separator] else [])
          ++ stringsJoin [Separator] (s.elems ++ ys) ∧
        r = Clean (stringsJoin [Separator] (List.replicate xs.length ['.', '.'] ++ ys))) := by
  have hvB := normalize_isValid (IsAbs root) (elements root) (elements_isElem root)
  have hvT := normalize_isValid (IsAbs path) (elements path) (elements_isElem path)
  have hcB := Clean_eq_render root
  have hcT := Clean_eq_render path
  have heT := elements_Clean path
  have hbs : ((if Clean root = ['.'] then [] else Clean root).head? = some Separator)
      ↔ IsAbs root = true := by
    rw [← IsAbs_Clean root]
    by_cases hd : Clean root = ['.']
    · rw [if_pos hd, hd]; decide
    · rw [if_neg hd]; simp [IsAbs]
  have hts : ((Clean path).head? = some Separator) ↔ IsAbs path = true := by
    rw [← IsAbs_Clean path]; simp [IsAbs]
  simp only [Rel] at h
  by_cases h1 : Clean path = Clean root
  · rw [if_pos h1] at h
    refine ⟨?_, Or.inl ⟨h1, ?_⟩⟩
    · rw [← IsAbs_Clean root, ← IsAbs_Clean path, h1]
    · cases h; rfl
  · rw [if_neg h1] at h
    by_cases h2 : ((if Clean root = ['.'] then [] else Clean root).head? = some Separator)
        ≠ ((Clean path).head? = some Separator)
    · rw [if_pos h2] at h; cases h
    · rw [if_neg h2] at h
      have habs : IsAbs root = IsAbs path := by
        have h2' := not_not.mp h2
        have : (IsAbs root = true) ↔ (IsAbs path = true) := by
          rw [← hbs, ← hts, h2']
        cases hr : IsAbs root <;> cases hp : IsAbs path <;> simp [hr, hp] at this ⊢
      refine ⟨habs, Or.inr ?_⟩
      rw [habs] at hvB hcB
      generalize normalize (IsAbs path) (elements root) = sB at hvB hcB ⊢
      generalize normalize (IsAbs path) (elements path) = sT at hvT hcT heT
      obtain ⟨ys, hys, hfil, htarg⟩ := rel_targ_form (IsAbs path) sT hvT
      have hbase : (if Clean root = ['.'] then [] else Clean root)
          = (if IsAbs path then [Separator] else []) ++ stringsJoin [Separator] sB.elems := by
        rw [hcB]; exact rel_base_form _ _ hvB
      have htarg' : Clean path
          = (if IsAbs path then [Separator] else []) ++ stringsJoin [Separator] ys :=
        hcT.trans htarg
      have hsegB : ∀ x ∈ sB.elems, x ≠ [] ∧ Separator ∉ x := fun x hx =>
        ⟨(hvB.isElem x hx).1, (hvB.isElem x hx).2.1⟩
      rw [hbase] at h
      rw [htarg'] at h
      rw [relLoop_root_mark] at h
      obtain ⟨P, xs', ys', hP1, hP2, hloop⟩ :=
        relLoop_segments sB.elems hsegB ys hys
          ((stringsJoin [Separator] sB.elems).length
            + ((if IsAbs path then [Separator] else [])
                ++ stringsJoin [Separator] ys).length)
          (Nat.le_trans (length_le_stringsJoin sB.elems (fun x hx => (hsegB x hx).1))
            (Nat.le_add_right _ _))
      rw [hloop] at h
      simp only [] at h
      by_cases hne : xs'.headD [] = ['.', '.']
      · rw [if_pos hne] at h; cases h
      · rw [if_neg hne] at h
        obtain ⟨N, hN1, hN2⟩ := names_of_rest sB P xs' hP1 hne
        have hsx : ∀ x ∈ xs', x ≠ [] ∧ Separator ∉ x := fun x hx =>
          hsegB x (by rw [hP1]; exact List.mem_append_right _ hx)
        have hsy : ∀ y ∈ ys', y ≠ [] ∧ Separator ∉ y := fun y hy =>
          hys y (by rw [hP2]; exact List.mem_append_right _ hy)
        have hform := rel_result_form xs' ys' hsx hsy
        have hr : r = Clean (stringsJoin [Separator]
            (List.replicate xs'.length ['.', '.'] ++ ys')) := by
          rw [← hform]
          by_cases hxn : stringsJoin [Separator] xs' ≠ []
          · rw [if_pos hxn] at h ⊢
            cases h; rfl
          · rw [if_neg hxn] at h ⊢
            cases h; rfl
        have hvs : (⟨sB.ups, N⟩ : Norm).Valid (IsAbs path) :=
          ⟨hvB.1, fun n hn => hvB.2 n (by rw [hN1]; exact List.mem_append_left _ hn)⟩
        have hPe : P = (⟨sB.ups, N⟩ : Norm).elems := hN2
        have hPf : P.filter (fun z => decide (z ≠ ['.'])) = P := by
          rw [List.filter_eq_self]
          intro y hy
          rw [hPe] at hy
          simpa using (hvs.isElem y hy).2.2
        refine ⟨⟨sB.ups, N⟩, xs', ys', hvs, hsy, ?_, ?_, ?_, hr⟩
        · cases sB with
          | mk ups names =>
            simp only at hN1 ⊢
            rw [hN1]
        · rw [heT, ← hfil, hP2, List.filter_append, hPf, hPe]
        · rw [htarg', hP2, hPe]

/-- Joining a result of `Rel` back onto the base gives the cleaned target. -/
theorem Rel_join_back (root path r : Str) (h : Rel root path = .ok r) :
    Join [root, r] = Clean path := by
  obtain ⟨habs, hshape⟩ := Rel_ok_shape root path r h
  have hjoin : root ≠ [] → Join [root, r]
      = ((elements r).foldl (Norm.push (IsAbs path))
          (normalize (IsAbs path) (elements root))).render (IsAbs path) := by
    intro hroot
    rw [Join_cons_ne root [r] hroot]
    have hs : stringsJoin [Separator] [root, r] = root ++ Separator :: r := by
      simp [stringsJoin]
    rw [hs, Clean_eq_render, IsAbs_append root _ hroot, elements_append_sep, habs]
    simp only [normalize, List.foldl_append]
  rcases hshape with ⟨hEq, hr⟩ | ⟨s, xs, ys, hvs, hys, hB, heT, htarg, hr⟩
  · by_cases hroot : root = []
    · subst hroot
      rw [hr, hEq]; decide
    · rw [hjoin hroot, hr, hEq, Clean_eq_render root, habs]
      rfl
  · have hseg : ∀ z ∈ List.replicate xs.length (['.', '.'] : Str) ++ ys,
        z ≠ [] ∧ Separator ∉ z := by
      intro z hz
      rcases List.mem_append.mp hz with hz | hz
      · rw [List.eq_of_mem_replicate hz]; decide
      · exact hys z hz
    by_cases hroot : root = []
    · subst hroot
      have hf : IsAbs path = false := by rw [← habs]; decide
      rw [hf] at hB htarg
      have hnil : s.names ++ xs = [] ∧ s.ups = 0 := by
        have h0 : normalize false (elements ([] : Str)) = ⟨0, []⟩ := by decide
        rw [h0] at hB
        have := Norm.mk.inj hB
        exact ⟨this.2.symm, this.1.symm⟩
      have hxs : xs = [] := (List.append_eq_nil.mp hnil.1).2
      have hsn : s.names = [] := (List.append_eq_nil.mp hnil.1).1
      have hse : s.elems = [] := by simp [Norm.elems, hsn, hnil.2]
      have hp : Clean path = stringsJoin [Separator] ys := by
        rw [htarg, hse]; simp
      have hrt : r = Clean path := by
        rw [hr, hxs]
        simp only [List.length_nil, List.replicate_zero, List.nil_append]
        rw [← hp, Clean_idem]
      have hne : r ≠ [] := by rw [hrt]; exact Clean_ne_nil path
      rw [Join_nil_cons, Join_cons_ne r [] hne]
      simp only [stringsJoin]
      rw [hrt, Clean_idem]
    · rw [hjoin hroot, hB]
      have hvT := normalize_isValid (IsAbs path) (elements path) (elements_isElem path)
      have heT2 := elements_Clean path
      have hX : IsAbs (stringsJoin [Separator]
          (List.replicate xs.length (['.', '.'] : Str) ++ ys)) = false := by
        simpa [IsAbs] using head_stringsJoin_segments _ hseg
      have hfr : (List.replicate xs.length (['.', '.'] : Str)).filter
          (fun z => decide (z ≠ ['.'])) = List.replicate xs.length ['.', '.'] := by
        rw [List.filter_eq_self]
        intro z hz
        rw [List.eq_of_mem_replicate hz]; decide
      have hs0 : s = s.elems.foldl (Norm.push (IsAbs path)) ⟨0, []⟩ := by
        have := normalize_elems (IsAbs path) s hvs
        rw [normalize] at this
        exact this.symm
      rw [hr, elements_Clean, hX, foldl_push_normalize _ _ (elements_isElem _),
        elements_stringsJoin_segments _ hseg, List.filter_append, hfr, List.foldl_append,
        foldl_push_pop]
      have hs1 : (⟨s.ups, s.names⟩ : Norm) = s := rfl
      rw [hs1, hs0, ← List.foldl_append, ← heT, heT2]
      have := normalize_elems (IsAbs path) _ hvT
      simp only [normalize] at this ⊢
      rw [this]
      exact (Clean_eq_render path).symm

/-! ## Relative paths joined back onto the source root -/

/-- C12: whenever `SrcDirRelPath(ctx, path)` returns a relative path `r` (does not
abort), joining it back onto the source root recovers the input up to lexical
cleaning: `Join(sourceRoot, r) = Clean(path)`, for every source root and every
path. -/
theorem SrcDirRelPath_join_back (ctx : AndroidModuleContext) (path r : Str)
    (h : SrcDirRelPath ctx path = .ok r) :
    Join [ctx.AConfig.SrcDir, r] = Clean path := by
  apply Rel_join_back
  simp only [SrcDirRelPath] at h
  cases hrel : Rel ctx.AConfig.SrcDir path with
  | error e => rw [hrel] at h; cases h
  | ok v => rw [hrel] at h; cases h; rfl

/-- Witness for C12: the path `/src/a/../b/x` is `b/x` relative to the source root
`/src`, and joining gives back `/src/b/x`. -/
theorem SrcDirRelPath_join_back_witness :
    SrcDirRelPath (mkCtx "/src" "/out" "a" "m" "v") "/src/a/../b/x".toList = .ok "b/x".toList ∧
    Join ["/src".toList, "b/x".toList] = Clean "/src/a/../b/x".toList :=
  ⟨rfl, SrcDirRelPath_join_back (mkCtx "/src" "/out" "a" "m" "v") "/src/a/../b/x".toList
    "b/x".toList rfl⟩

end Soong
